import Mathlib

/-!
# teldrive: HTTP range parser, streaming reader, buffer pool, event recorder

A shallow embedding of `internal/http_range/range.go`,
`internal/reader/reader.go`, `internal/reader/buffer.go` and
`internal/events/recorder.go`.

Conventions of the embedding:

* Go's `int64` (and `int`) values are Lean integers; every arithmetic
  operation of the source that can leave the 64-bit range is followed by
  `wrap64`, the two's-complement wrap-around of the Go specification.
* Go strings are lists of characters (`List Char`), i.e. valid UTF-8 text; the
  separators the parser looks for (`=`, `,`, `-`) are ASCII, so splitting by
  character and splitting by byte agree.
* A `continue` in a loop body is the `none` of an `Option`.
* A function that can run for ever or fault carries a fuel argument and
  returns an `Outcome`.
* The goroutines of the event recorder interleave at their channel
  operations: a state of the recorder holds what they share, and a caller's
  `Record`, a step of the worker and the cancellation of the context are the
  atomic steps.
-/

namespace Teldrive

/-! ## Machine integers -/

/-- Smallest `int64`. -/
def MinInt64 : Int := -9223372036854775808

/-- Largest `int64`. -/
def MaxInt64 : Int := 9223372036854775807

/-- Two's-complement wrap-around of an integer into the `int64` range. -/
def wrap64 (x : Int) : Int :=
  (x + 9223372036854775808) % 18446744073709551616 - 9223372036854775808

/-- The integer is an `int64` value. -/
def IsInt64 (x : Int) : Prop := MinInt64 ≤ x ∧ x ≤ MaxInt64

instance (x : Int) : Decidable (IsInt64 x) := by
  unfold IsInt64; exact inferInstance

/-! ## Go standard library functions used by the parser -/

/-- Go's `unicode.IsSpace`: the white space characters `strings.TrimSpace` removes. -/
def isSpace (c : Char) : Bool :=
  let n := c.toNat
  n == 0x09 || n == 0x0A || n == 0x0B || n == 0x0C || n == 0x0D || n == 0x20 ||
  n == 0x85 || n == 0xA0 || n == 0x1680 || (0x2000 ≤ n && n ≤ 0x200A) ||
  n == 0x2028 || n == 0x2029 || n == 0x202F || n == 0x205F || n == 0x3000

/-- Go's `strings.TrimSpace`: drop leading and trailing white space. -/
def TrimSpace (s : List Char) : List Char :=
  ((s.dropWhile isSpace).reverse.dropWhile isSpace).reverse

/-- Go's `strings.Index(s, sep)` for a one-character separator: the position
of the first occurrence, `-1` when there is none. -/
def Index : List Char → Char → Int
  | [], _ => -1
  | c :: cs, sep =>
    if c = sep then 0
    else if Index cs sep = -1 then -1 else Index cs sep + 1

/-- Go's `strings.Split(s, sep)` for a one-character separator: the pieces
between the occurrences of `sep`; never the empty list. -/
def Split : List Char → Char → List (List Char)
  | [], _ => [[]]
  | c :: cs, sep =>
    if c = sep then [] :: Split cs sep
    else
      match Split cs sep with
      | [] => [[c]]
      | h :: t => (c :: h) :: t

/-- The two error kinds of `strconv.NumError`. -/
inductive NumError where
  | ErrSyntax
  | ErrRange
  deriving DecidableEq, Repr

/-- Value of a decimal digit, `none` for any other character. -/
def digitVal (c : Char) : Option Nat :=
  if 48 ≤ c.toNat ∧ c.toNat ≤ 57 then some (c.toNat - 48) else none

/-- The digit loop of `strconv.ParseUint(s, 10, 64)`, from accumulator `n`. -/
def parseUintLoop : List Char → Nat → Nat × Option NumError
  | [], n => (n, none)
  | c :: cs, n =>
    match digitVal c with
    | none => (0, some NumError.ErrSyntax)
    | some d =>
      if 18446744073709551616 ≤ n * 10 + d then
        (18446744073709551615, some NumError.ErrRange)
      else parseUintLoop cs (n * 10 + d)

/-- Go's `strconv.ParseUint(s, 10, 64)`. -/
def ParseUint (s : List Char) : Nat × Option NumError :=
  if s = [] then (0, some NumError.ErrSyntax) else parseUintLoop s 0

/-- Go's `strconv.ParseInt(s, 10, 64)`: an optional sign followed by decimal
digits; the value returned with an error is `0` (syntax) or the nearest
bound (range). -/
def ParseInt (s : List Char) : Int × Option NumError :=
  match s with
  | [] => (0, some NumError.ErrSyntax)
  | c :: cs =>
    let neg : Bool := c == '-'
    let body := if c = '+' ∨ c = '-' then cs else s
    let res := ParseUint body
    let un := res.1
    if res.2 = some NumError.ErrSyntax then (0, some NumError.ErrSyntax)
    else if neg = false ∧ 9223372036854775808 ≤ un then
      (9223372036854775807, some NumError.ErrRange)
    else if neg = true ∧ 9223372036854775808 < un then
      (-9223372036854775808, some NumError.ErrRange)
    else
      let n := wrap64 (un : Int)
      (if neg then wrap64 (-n) else n, none)

/-! ## `internal/http_range/range.go` -/

/-- The `Range` struct of package `http_range`. -/
structure Range where
  Start : Int
  End : Int
  deriving DecidableEq, Repr

/-- Error values met in `Parse`: the two package-level sentinels, the two
errors made inside the loop, and the errors of `strconv`. -/
inductive Err where
  | ErrNoOverlap
  | ErrInvalid
  | emptyStart
  | emptyEnd
  | num (e : NumError)
  deriving DecidableEq, Repr

/-- Lift the error of `strconv.ParseInt` to an `error` value (`nil` is `none`). -/
def liftNum (r : Int × Option NumError) : Int × Option Err :=
  (r.1, r.2.map Err.num)

/-- Lines 67-83 of `Parse`: the suffix form and the open-ended form.
The result `none` is the `continue` of line 73. -/
def resolveSides (start endv : Int) (startErr endErr : Option Err) (size : Int) :
    Option (Int × Int) :=
  if startErr ≠ none then
    let e1 := if endv > size then size else endv
    if e1 ≤ 0 then none
    else
      let s1 := wrap64 (size - e1)
      let e2 := wrap64 (size - 1)
      let s2 := if s1 < 0 then 0 else s1
      some (s2, e2)
  else if endErr ≠ none then some (start, wrap64 (size - 1))
  else some (start, endv)

/-- Lines 85-98 of `Parse`: clamp the end, validate, build the range. -/
def clampValidate (start endv size : Int) : Option Range :=
  let e := if endv ≥ size then wrap64 (size - 1) else endv
  if start < 0 ∨ start > e ∨ e < 0 then none
  else some { Start := start, End := e }

/-- Lines 48-60 of `Parse` for one side of the spec: parse it when it is
non-empty, otherwise make the error `empty`. -/
def parseSide (str : List Char) (empty : Err) : Int × Option Err :=
  if str ≠ [] then liftNum (ParseInt str) else (0, some empty)

/-- Lines 62-98 of `Parse`: from the two parsed sides to the appended range;
`none` when a `continue` is reached. -/
def rangeOfSides (start endv : Int) (startErr endErr : Option Err) (size : Int) :
    Option Range :=
  if startErr ≠ none ∧ endErr ≠ none then none
  else
    match resolveSides start endv startErr endErr size with
    | none => none
    | some se => clampValidate se.1 se.2 size

/-- The body of the loop of `Parse` (lines 31-98) for one element `value` of
the split header: the range it appends, or `none` when it reaches a
`continue`. -/
def parseSpec (value : List Char) (size : Int) : Option Range :=
  let value := TrimSpace value
  if value = [] then none
  else
    match Split value '-' with
    | [r0, r1] =>
      let ps := parseSide (TrimSpace r0) Err.emptyStart
      let pe := parseSide (TrimSpace r1) Err.emptyEnd
      rangeOfSides ps.1 pe.1 ps.2 pe.2 size
    | _ => none

/-- The `for _, value := range arr` loop of `Parse`, with `ranges` as the
accumulator. -/
def parseLoop : List (List Char) → Int → List Range → List Range
  | [], _, ranges => ranges
  | value :: arr, size, ranges =>
    match parseSpec value size with
    | none => parseLoop arr size ranges
    | some r => parseLoop arr size (ranges ++ [r])

/-- The function `Parse` on the characters of the header. -/
def parseChars (header : List Char) (size : Int) : List Range × Option Err :=
  let index := Index header '='
  if index = -1 then ([], some Err.ErrInvalid)
  else
    let arr := Split (header.drop (index + 1).toNat) ','
    let ranges := parseLoop arr size []
    if ranges.length = 0 then ([], some Err.ErrNoOverlap)
    else (ranges, none)

/-- Go's `Parse(header string, size int64) ([]*Range, error)`; a `nil` slice is
the empty list and a `nil` error is `none`. -/
def Parse (header : String) (size : Int) : List Range × Option Err :=
  parseChars header.toList size

/-! ## `internal/reader/reader.go` -/

/-- Result of running code that can fault or fail to terminate: a value, a
run-time panic of Go (`fault`), or the fuel ran out (`timeout`). -/
inductive Outcome (α : Type) where
  | ok (a : α)
  | fault
  | timeout
  deriving DecidableEq, Repr

/-- The `Range` struct of package `reader` (the parser's `Range` has the name
already): inclusive offsets inside part number `PartNo`. -/
structure PartRange where
  Start : Int
  End : Int
  PartNo : Int
  deriving DecidableEq, Repr

/-- The loop of `calculatePartByteRanges` (lines 40-48), entered with loop
variable `part` and the slice built so far; `none` when the fuel runs out. -/
def rangesLoop : Nat → Int → Int → Int → Int → Int → List PartRange → Option (List PartRange)
  | 0, _, _, _, _, _, _ => none
  | fuel + 1, start, endv, partSize, endPart, part, ranges =>
    if part ≤ endPart then
      let partStart := max (wrap64 (start - wrap64 (part * partSize))) 0
      let partEnd := min (wrap64 (partSize - 1)) (wrap64 (endv - wrap64 (part * partSize)))
      rangesLoop fuel start endv partSize endPart (wrap64 (part + 1))
        (ranges ++ [{ Start := partStart, End := partEnd, PartNo := part }])
    else some ranges

/-- Go's `calculatePartByteRanges(start, end, partSize int64) []Range`; the
division by a zero `partSize` is a run-time panic. -/
def calculatePartByteRanges (fuel : Nat) (start endv partSize : Int) :
    Outcome (List PartRange) :=
  if partSize = 0 then Outcome.fault
  else
    let startPart := wrap64 (Int.tdiv start partSize)
    let endPart := wrap64 (Int.tdiv endv partSize)
    match rangesLoop fuel start endv partSize endPart startPart [] with
    | none => Outcome.timeout
    | some ranges => Outcome.ok ranges

/-- Modelled from the spec: the fields of `types.Part` the reader uses (the
declaration is in `pkg/types`, outside the sources at hand): `ID`, `Size`
(ciphertext size), `DecryptedSize` (plaintext size) and `Salt`. -/
structure Part where
  ID : Int
  Size : Int
  DecryptedSize : Int
  Salt : String
  deriving DecidableEq, Repr

/-- Modelled from the spec: the fields of `models.File` the reader uses (the
declaration is in `pkg/models`): the identifier, the `Encrypted` flag and the
channel identifier. -/
structure File where
  ID : String
  Encrypted : Bool
  ChannelId : Int
  deriving DecidableEq, Repr

/-- The `chunkSource` built by `getPartReader` (lines 143-150); the client and
cache handles are left out, the cache key is the tuple of its four segments. -/
structure ChunkSource where
  channelId : Int
  partId : Int
  concurrency : Int
  key : String × String × String × Int
  deriving DecidableEq, Repr

/-- Errors of the streaming reader: `io.EOF`, the three `fmt.Errorf` values of
`getPartReader` with their arguments, the one of the decryption callback, and
the errors of the external layers. -/
inductive RErr where
  | EOF
  | positionOutOfRange (pos max : Int)
  | partOutOfRange (partNo available : Int)
  | invalidIndexEncryption (pos partNo : Int)
  | invalidIndexCallback
  | upstream (code : Nat)
  deriving DecidableEq, Repr

/-- The external layers the reader calls, over a type `ρ` of part-reader
states: the chunk-fetch primitive `newTGMultiReader`, the decrypt layer
`DecryptDataSeek` (encryption key, salt, fetch callback, offset, limit), and
the `Read` (on a destination of the given length) and `Close` methods of the
`io.ReadCloser` they return. A `nil` reader or error is `none`. -/
structure Env (ρ : Type) where
  newTGMultiReader : Int → Int → ChunkSource → Option ρ × Option RErr
  DecryptDataSeek : String → String → (Int → Int → Option ρ × Option RErr) → Int → Int →
    Option ρ × Option RErr
  Read : ρ → Nat → (Nat × Option RErr) × ρ
  Close : ρ → Option RErr

/-- A call the reader itself makes on an external layer, in the order made. -/
inductive Call (ρ : Type) where
  | newTGMultiReader (start endv : Int) (src : ChunkSource)
  | DecryptDataSeek (key salt : String) (offset limit : Int)
  | Read (rd : ρ) (len : Nat)
  | Close (rd : ρ)
  deriving DecidableEq, Repr

/-- The `Reader` struct: `ctx`, `client`, `cache` are handles only passed
through and left out; of `config` the encryption key is kept. -/
structure Reader (ρ : Type) where
  file : File
  parts : List Part
  ranges : List PartRange
  pos : Int
  reader : Option ρ
  remaining : Int
  encryptionKey : String
  concurrency : Int
  deriving DecidableEq, Repr

/-- What a method returns: its result, the reader after it, and the external
calls it made. -/
structure Step (ρ α : Type) where
  val : α
  st : Reader ρ
  calls : List (Call ρ)
  deriving DecidableEq, Repr

/-- The callback handed to `DecryptDataSeek` (lines 168-182), over the reader
as it is when `getPartReader` builds the callback, i.e. after the bounds checks
of lines 130-139: the cursor and the part number are then inside their lists,
so the indexing of lines 175 and 178 cannot panic and the look-ups below find
their element. -/
def decryptCallback {ρ : Type} (env : Env ρ) (r : Reader ρ) (src : ChunkSource)
    (underlyingOffset underlyingLimit : Int) : Option ρ × Option RErr :=
  if underlyingLimit ≥ 0 then
    match r.ranges.get? r.pos.toNat with
    | none => (none, some RErr.invalidIndexCallback)
    | some cur =>
      if r.pos ≥ r.ranges.length ∨ cur.PartNo ≥ r.parts.length then
        (none, some RErr.invalidIndexCallback)
      else
        match r.parts.get? cur.PartNo.toNat with
        | none => (none, some RErr.invalidIndexCallback)
        | some part =>
          let endv := min (wrap64 (part.Size - 1))
            (wrap64 (wrap64 (underlyingOffset + underlyingLimit) - 1))
          env.newTGMultiReader underlyingOffset endv src
  else env.newTGMultiReader underlyingOffset 0 src

/-- Go's `(r *Reader) getPartReader()`: the reader and error it returns and the
external calls it makes; `fault` is an index out of range. -/
def getPartReader {ρ : Type} (env : Env ρ) (r : Reader ρ) :
    Outcome ((Option ρ × Option RErr) × List (Call ρ)) :=
  if r.pos ≥ r.ranges.length then
    Outcome.ok ((none, some (RErr.positionOutOfRange r.pos (r.ranges.length - 1))), [])
  else if r.pos < 0 then Outcome.fault
  else
    match r.ranges.get? r.pos.toNat with
    | none => Outcome.fault
    | some currentRange =>
      if currentRange.PartNo < 0 ∨ currentRange.PartNo ≥ r.parts.length then
        Outcome.ok ((none,
          some (RErr.partOutOfRange currentRange.PartNo r.parts.length)), [])
      else
        match r.parts.get? currentRange.PartNo.toNat with
        | none => Outcome.fault
        | some part =>
          let partId := part.ID
          let chunkSrc : ChunkSource :=
            { channelId := r.file.ChannelId, partId := partId,
              concurrency := r.concurrency,
              key := ("files", "location", r.file.ID, partId) }
          let fetched := env.newTGMultiReader currentRange.Start currentRange.End chunkSrc
          let call1 := Call.newTGMultiReader currentRange.Start currentRange.End chunkSrc
          if r.file.Encrypted then
            if r.pos ≥ r.ranges.length ∨ currentRange.PartNo ≥ r.parts.length then
              Outcome.ok ((none,
                some (RErr.invalidIndexEncryption r.pos currentRange.PartNo)), [call1])
            else
              let salt := part.Salt
              let limit := wrap64 (wrap64 (currentRange.End - currentRange.Start) + 1)
              Outcome.ok (env.DecryptDataSeek r.encryptionKey salt
                  (decryptCallback env r chunkSrc) currentRange.Start limit,
                [call1, Call.DecryptDataSeek r.encryptionKey salt currentRange.Start limit])
          else Outcome.ok (fetched, [call1])

/-- Go's `(r *Reader) initializeReader()`. -/
def initializeReader {ρ : Type} (env : Env ρ) (r : Reader ρ) :
    Outcome (Step ρ (Option RErr)) :=
  match getPartReader env r with
  | Outcome.fault => Outcome.fault
  | Outcome.timeout => Outcome.timeout
  | Outcome.ok (res, calls) =>
    if res.2 ≠ none then Outcome.ok { val := res.2, st := r, calls := calls }
    else Outcome.ok { val := none, st := { r with reader := res.1 }, calls := calls }

/-- Go's `(r *Reader) moveToNextPart()`; calling `Close` on a `nil` reader is a
run-time panic. -/
def moveToNextPart {ρ : Type} (env : Env ρ) (r : Reader ρ) :
    Outcome (Step ρ (Option RErr)) :=
  match r.reader with
  | none => Outcome.fault
  | some rd =>
    let r1 := { r with pos := wrap64 (r.pos + 1) }
    if r1.pos < r1.ranges.length then
      match initializeReader env r1 with
      | Outcome.ok s => Outcome.ok { s with calls := Call.Close rd :: s.calls }
      | o => o
    else Outcome.ok { val := some RErr.EOF, st := r1, calls := [Call.Close rd] }

/-- Go's `(r *Reader) Read(p []byte)`, for a destination `p` of length `len`. -/
def Reader.Read {ρ : Type} (env : Env ρ) (r : Reader ρ) (len : Nat) :
    Outcome (Step ρ (Nat × Option RErr)) :=
  if r.remaining ≤ 0 then Outcome.ok { val := (0, some RErr.EOF), st := r, calls := [] }
  else
    match r.reader with
    | none => Outcome.fault
    | some rd =>
      let res := env.Read rd len
      let n := res.1.1
      let err := res.1.2
      let r1 := { r with reader := some res.2, remaining := wrap64 (r.remaining - n) }
      if err = some RErr.EOF ∧ r1.remaining > 0 then
        match moveToNextPart env r1 with
        | Outcome.fault => Outcome.fault
        | Outcome.timeout => Outcome.timeout
        | Outcome.ok s =>
          if s.val ≠ none then
            Outcome.ok { val := (n, s.val), st := s.st, calls := Call.Read rd len :: s.calls }
          else
            Outcome.ok { val := (n, none), st := s.st, calls := Call.Read rd len :: s.calls }
      else Outcome.ok { val := (n, err), st := r1, calls := [Call.Read rd len] }

/-- Go's `(r *Reader) Close()`. -/
def Reader.Close {ρ : Type} (env : Env ρ) (r : Reader ρ) : Step ρ (Option RErr) :=
  match r.reader with
  | some rd => { val := env.Close rd, st := { r with reader := none }, calls := [Call.Close rd] }
  | none => { val := none, st := r, calls := [] }

/-- Go's `NewReader(ctx, client, cache, file, parts, start, end, config)`: the
stream, or `none` with the error of the eager open. Indexing `parts[0]` of an
empty slice is a run-time panic. -/
def NewReader {ρ : Type} (env : Env ρ) (fuel : Nat) (file : File) (parts : List Part)
    (start endv : Int) (encryptionKey : String) :
    Outcome (Option (Reader ρ) × Option RErr × List (Call ρ)) :=
  match parts with
  | [] => Outcome.fault
  | p0 :: _ =>
    let size := if file.Encrypted then p0.DecryptedSize else p0.Size
    match calculatePartByteRanges fuel start endv size with
    | Outcome.fault => Outcome.fault
    | Outcome.timeout => Outcome.timeout
    | Outcome.ok ranges =>
      let r : Reader ρ :=
        { file := file, parts := parts, ranges := ranges, pos := 0, reader := none,
          remaining := wrap64 (wrap64 (endv - start) + 1),
          encryptionKey := encryptionKey, concurrency := 0 }
      match initializeReader env r with
      | Outcome.fault => Outcome.fault
      | Outcome.timeout => Outcome.timeout
      | Outcome.ok s =>
        if s.val ≠ none then Outcome.ok (none, s.val, s.calls)
        else Outcome.ok (some s.st, none, s.calls)

/-- Successive `Read` calls, the `i`-th on a destination of length `bufs i`,
up to and including the first one that returns an error: the number of bytes
returned in total, that error, and the reader afterwards. -/
def readUntilError {ρ : Type} (env : Env ρ) (bufs : Nat → Nat) :
    Nat → Nat → Reader ρ → Nat → Outcome (Nat × RErr × Reader ρ)
  | 0, _, _, _ => Outcome.timeout
  | fuel + 1, i, r, total =>
    match Reader.Read env r (bufs i) with
    | Outcome.fault => Outcome.fault
    | Outcome.timeout => Outcome.timeout
    | Outcome.ok s =>
      match s.val.2 with
      | some e => Outcome.ok (total + s.val.1, e, s.st)
      | none => readUntilError env bufs fuel (i + 1) s.st (total + s.val.1)

/-- A part reader that hands out its bytes in full: its state is the number of
bytes left; `Read` on a destination of length `len` returns `min len left`
bytes, together with `io.EOF` when these are the last ones. -/
def idealEnv : Env Nat where
  newTGMultiReader := fun s e _ => (some (e - s + 1).toNat, none)
  DecryptDataSeek := fun _ _ _ _ limit => (some limit.toNat, none)
  Read := fun left len => ((min len left, if left ≤ len then some RErr.EOF else none),
    left - min len left)
  Close := fun _ => none

/-! ## `internal/reader/buffer.go` -/

/-- The `buffer` struct. The slice `buf` is given by its elements (`len(b.buf)`
is `buf.length`) and the capacity `cap` of its backing array. -/
structure buffer where
  buf : List UInt8
  cap : Nat
  offset : Int
  deriving DecidableEq, Repr

/-- Go's `(b *buffer) isEmpty()`; a `nil` receiver is `none`. -/
def buffer.isEmpty (b : Option buffer) : Bool :=
  match b with
  | none => true
  | some b => decide (wrap64 ((b.buf.length : Int) - b.offset) ≤ 0)

/-- Go's `(b *buffer) buffer()` (the name `buffer` is the struct's here): the
slice `b.buf[b.offset:]`; an offset outside `0 .. len(b.buf)` is a run-time
panic. -/
def buffer.unread (b : buffer) : Outcome (List UInt8) :=
  if b.offset < 0 ∨ b.offset > b.buf.length then Outcome.fault
  else Outcome.ok (b.buf.drop b.offset.toNat)

/-- Go's `(b *buffer) increment(n int)`. -/
def buffer.increment (b : buffer) (n : Int) : buffer :=
  { b with offset := wrap64 (b.offset + n) }

/-- Go's `(b *buffer) reset()`: `b.buf = b.buf[:0]` keeps the backing array. -/
def buffer.reset (b : buffer) : buffer :=
  { b with buf := [], offset := 0 }

/-- Modelled from the spec: the process-wide `sync.Pool` behind `bufferPoolPtr`,
which `tg_reader.go` (not among the sources at hand) creates: an explicit
collection of the buffers it holds, and the buffer its `New` function makes
when the pool hands out none of them. -/
structure Pool where
  items : List buffer
  New : buffer
  deriving DecidableEq, Repr

/-- Modelled from the spec: `sync.Pool.Get`, which removes and returns an
arbitrary pooled item (`pick = some i`, the `i`-th) or, at its choice or when
there is none, the result of `New`. -/
def Pool.Get (p : Pool) (pick : Option Nat) : buffer × Pool :=
  match pick with
  | none => (p.New, p)
  | some i =>
    match p.items.get? i with
    | none => (p.New, p)
    | some b => (b, { p with items := p.items.eraseIdx i })

/-- Modelled from the spec: `sync.Pool.Put`, which adds the item to the pool. -/
def Pool.Put (p : Pool) (b : buffer) : Pool :=
  { p with items := b :: p.items }

/-- Go's `getBuffer()`, for the current value of `bufferPoolPtr` (`none` is
`nil`): the buffer returned and the pool afterwards. -/
def getBuffer (bufferPoolPtr : Option Pool) (pick : Option Nat) : buffer × Option Pool :=
  match bufferPoolPtr with
  | none => ({ buf := [], cap := 4 * 1024 * 1024, offset := 0 }, none)
  | some p =>
    let got := p.Get pick
    (got.1.reset, some got.2)

/-- Go's `putBuffer(b *buffer)`: the pool afterwards and the buffer `b` points
to afterwards (`reset` works in place). -/
def putBuffer (bufferPoolPtr : Option Pool) (b : Option buffer) :
    Option Pool × Option buffer :=
  match bufferPoolPtr, b with
  | none, _ => (bufferPoolPtr, b)
  | _, none => (bufferPoolPtr, b)
  | some p, some bb =>
    if bb.cap ≤ 16 * 1024 * 1024 then (some (p.Put bb.reset), some bb.reset)
    else (bufferPoolPtr, b)

/-! ## `internal/events/recorder.go` -/

/-- Go's `type EventType string`. -/
abbrev EventType := String

/-- The constant `OpCreate`. -/
def OpCreate : EventType := "file_create"

/-- The constant `OpUpdate`. -/
def OpUpdate : EventType := "file_update"

/-- The constant `OpDelete`. -/
def OpDelete : EventType := "file_delete"

/-- The constant `OpMove`. -/
def OpMove : EventType := "file_move"

/-- The constant `OpCopy`. -/
def OpCopy : EventType := "file_copy"

/-- Modelled from the spec: the fields of `models.Event` (declared in
`pkg/models`): the type literal (`Typ`, the field `Type`), the user id and the
source payload, here the serialised `*models.Source` (`none` is a `nil`
pointer). -/
structure Event where
  Typ : String
  UserID : Int
  Source : Option String
  deriving DecidableEq, Repr

/-- A field of a log entry (`zap.String`, `zap.Int64`, `zap.Error`, `zap.Any`). -/
inductive LogField where
  | String (key val : String)
  | Int64 (key : String) (val : Int)
  | Error (err : String)
  | Any (key val : String)
  deriving DecidableEq, Repr

/-- A message handed to the logger. -/
structure LogEntry where
  level : String
  msg : String
  fields : List LogField
  deriving DecidableEq, Repr

/-- What one call `r.db.Create(&evt)` does: it returns with a nil `.Error`,
returns with an error, or panics with a value (the case the deferred `recover`
of `processEvents` is there for). -/
inductive CreateResult where
  | ok
  | error (err : String)
  | panics (value : String)
  deriving DecidableEq, Repr

/-- Where the goroutine `processEvents` stands: at the `select` of its outer
loop, inside the `for evt := range r.events` of the branch `ctx.Done()`, or
returned. -/
inductive Worker where
  | selecting
  | draining
  | exited
  deriving DecidableEq, Repr

/-- The `Recorder` with what it shares between goroutines: the buffered
channel `events` (oldest first, capacity 1000) and whether it is closed,
whether `ctx.Done()` is closed, the worker, whether `done` is closed, and, as
observations, the calls of `db.Create` and the log in the order made. -/
structure Recorder where
  events : List Event
  eventsClosed : Bool
  ctxDone : Bool
  worker : Worker
  done : Bool
  created : List Event
  logs : List LogEntry
  deriving DecidableEq, Repr

/-- Go's `NewRecorder(ctx, db, logger)`, for a context that is or is not yet
cancelled; the worker is started. -/
def NewRecorder (ctxDone : Bool) : Recorder :=
  { events := [], eventsClosed := false, ctxDone := ctxDone, worker := Worker.selecting,
    done := false, created := [], logs := [] }

/-- Go's `(r *Recorder) Record(eventType, userID, source)`: a non-blocking
send. A send on a closed channel is a run-time panic. -/
def Recorder.Record (r : Recorder) (eventType : EventType) (userID : Int)
    (source : Option String) : Outcome Recorder :=
  let evt : Event := { Typ := eventType, UserID := userID, Source := source }
  if r.eventsClosed then Outcome.fault
  else if r.events.length < 1000 then Outcome.ok { r with events := r.events ++ [evt] }
  else
    Outcome.ok { r with logs := r.logs ++
      [{ level := "warn", msg := "event queue full, dropping event",
         fields := [LogField.String "type" eventType, LogField.Int64 "user_id" userID] }] }

/-- The two `db.Create(&evt)` sites of `processEvents` (lines 75-79 when
`draining`, lines 87-92 otherwise): the call is recorded and a failure is
logged. What `Create` does is given by `db` from the calls made before and the
event. When it panics, the deferred function (lines 62-67) recovers, logs the
panic and closes `done`, and the worker has returned. -/
def persist (db : List Event → Event → CreateResult) (draining : Bool) (r : Recorder)
    (evt : Event) : Recorder :=
  match db r.created evt with
  | CreateResult.ok => { r with created := r.created ++ [evt] }
  | CreateResult.error err =>
    if draining then
      { r with created := r.created ++ [evt], logs := r.logs ++
        [{ level := "error", msg := "failed to save event during shutdown",
           fields := [LogField.Error err, LogField.String "type" evt.Typ] }] }
    else
      { r with created := r.created ++ [evt], logs := r.logs ++
        [{ level := "error", msg := "failed to save event",
           fields := [LogField.Error err, LogField.String "type" evt.Typ,
             LogField.Int64 "user_id" evt.UserID] }] }
  | CreateResult.panics value =>
    { r with worker := Worker.exited, done := true, created := r.created ++ [evt], logs := r.logs ++
        [{ level := "error", msg := "panic in processEvents",
           fields := [LogField.Any "panic" value] }] }

/-- One step of the goroutine `processEvents`: a `select` of the outer loop or
one iteration of the drain loop. `pickDone` is the choice of the `select` when
both of its cases are ready. `none` means the worker is blocked or has
returned. The deferred function closes `done` on return. -/
def workerStep (db : List Event → Event → CreateResult) (pickDone : Bool) (r : Recorder) :
    Option Recorder :=
  match r.worker with
  | Worker.exited => none
  | Worker.selecting =>
    let recvReady : Bool := !r.events.isEmpty || r.eventsClosed
    if r.ctxDone && (pickDone || !recvReady) then
      some { r with worker := Worker.draining, logs := r.logs ++
        [{ level := "info", msg := "draining remaining events before shutdown",
           fields := [] }] }
    else
      match r.events with
      | evt :: rest => some (persist db false { r with events := rest } evt)
      | [] =>
        if r.eventsClosed then some { r with worker := Worker.exited, done := true }
        else none
  | Worker.draining =>
    match r.events with
    | evt :: rest => some (persist db true { r with events := rest } evt)
    | [] =>
      if r.eventsClosed then some { r with worker := Worker.exited, done := true }
      else none

/-- The wait `<-r.done` of `Shutdown`: the worker runs until it has returned.
`choices` are the choices of its `select`s, and `cancels` says before which of
its steps the context is cancelled by its owner. -/
def awaitDone (db : List Event → Event → CreateResult) (choices cancels : Nat → Bool) :
    Nat → Nat → Recorder → Outcome Recorder
  | 0, _, _ => Outcome.timeout
  | fuel + 1, i, r =>
    if r.done then Outcome.ok r
    else
      match workerStep db (choices i) { r with ctxDone := r.ctxDone || cancels i } with
      | none => Outcome.timeout
      | some r1 => awaitDone db choices cancels fuel (i + 1) r1

/-- Go's `(r *Recorder) Shutdown()`. Closing a closed channel is a run-time
panic. -/
def Recorder.Shutdown (db : List Event → Event → CreateResult) (choices cancels : Nat → Bool)
    (fuel : Nat) (r : Recorder) : Outcome Recorder :=
  if r.eventsClosed then Outcome.fault
  else
    match awaitDone db choices cancels fuel 0 { r with eventsClosed := true } with
    | Outcome.ok r1 =>
      Outcome.ok { r1 with logs := r1.logs ++
        [{ level := "info", msg := "event recorder shutdown complete", fields := [] }] }
    | o => o

/-! ## Vocabulary of the statements -/

/-- The comma-separated range specs of a header: what follows its first `=`. -/
def specsOf (header : List Char) : List (List Char) :=
  Split (header.drop (Index header '=' + 1).toNat) ','

/-- Value of a string of decimal digits read from accumulator `n`, without any
bound; `none` when a character is not a digit. -/
def decimalFold : List Char → Nat → Option Nat
  | [], n => some n
  | c :: cs, n =>
    match digitVal c with
    | none => none
    | some d => decimalFold cs (n * 10 + d)

/-- The string `s` is a decimal numeral (non-empty, digits only, leading zeros
allowed) of the natural number `n`. -/
def IsDecimal (s : List Char) (n : Nat) : Prop := s ≠ [] ∧ decimalFold s 0 = some n

/-- A non-empty string of decimal digits. -/
def IsDigits (s : List Char) : Prop := s ≠ [] ∧ ∀ c ∈ s, digitVal c ≠ none

/-- The spec has one of the forms `N-M`, `N-` or `-N`, with `N` and `M` non-empty
strings of decimal digits. -/
def IsRangeForm (spec : List Char) : Prop :=
  ∃ n m, IsDigits n ∧
    ((IsDigits m ∧ spec = n ++ '-' :: m) ∨ spec = n ++ ['-'] ∨ spec = '-' :: n)

/-- One side of a spec that cannot be a number: blank, or holding a character
that is neither a decimal digit nor a sign. -/
def SideNotNumeric (s : List Char) : Prop :=
  TrimSpace s = [] ∨ ∃ c ∈ TrimSpace s, digitVal c = none ∧ c ≠ '+' ∧ c ≠ '-'

/-- A spec the parser skips for its shape: blank, or without exactly one `-`, or
with neither side of its `-` a number. -/
def Malformed (spec : List Char) : Prop :=
  TrimSpace spec = [] ∨ (TrimSpace spec).count '-' ≠ 1 ∨
    ∃ x y, TrimSpace spec = x ++ '-' :: y ∧ SideNotNumeric x ∧ SideNotNumeric y

/-- The entry `calculatePartByteRanges` computes for part number `p`. -/
def partEntry (start endv partSize p : Int) : PartRange :=
  { Start := max (start - p * partSize) 0,
    End := min (partSize - 1) (endv - p * partSize),
    PartNo := p }

/-- The list the partitioning algorithm describes: one entry for each part
number from `start / partSize` to `end / partSize`. -/
def expectedRanges (start endv partSize : Int) : List PartRange :=
  (List.range (endv / partSize - start / partSize + 1).toNat).map
    (fun (k : Nat) => partEntry start endv partSize (start / partSize + (k : Int)))

/-- Number of bytes the entries of a partition list cover. -/
def bytesOf (l : List PartRange) : Int :=
  (l.map (fun x => x.End - x.Start + 1)).sum

/-- The external layers deliver every partition in full:
every part reader opens, for a range or for a plaintext sub-range, with
exactly the requested number of bytes left (`left`); a `Read` on a non-empty
destination hands out at least one and at most the bytes left, and reports
end-of-stream only with or after the last of them. -/
structure Delivers {ρ : Type} (env : Env ρ) (left : ρ → Nat) : Prop where
  fetch : ∀ s e src, 0 ≤ s → s ≤ e →
    ∃ rd, env.newTGMultiReader s e src = (some rd, none) ∧ (left rd : Int) = e - s + 1
  decrypt : ∀ key salt cb off lim, 0 ≤ off → 1 ≤ lim →
    ∃ rd, env.DecryptDataSeek key salt cb off lim = (some rd, none) ∧ (left rd : Int) = lim
  read_done : ∀ rd len, left rd = 0 →
    (env.Read rd len).1 = (0, some RErr.EOF) ∧ left (env.Read rd len).2 = 0
  read_some : ∀ rd len, 0 < len → 0 < left rd →
    1 ≤ (env.Read rd len).1.1 ∧ (env.Read rd len).1.1 ≤ left rd ∧
    left (env.Read rd len).2 = left rd - (env.Read rd len).1.1 ∧
    ((env.Read rd len).1.2 = none ∨
      ((env.Read rd len).1.2 = some RErr.EOF ∧ (env.Read rd len).1.1 = left rd))

/-- An entry of the partition list the reader can open: offsets in order and
a part number inside the parts list. -/
def GoodEntry (nparts : Nat) (x : PartRange) : Prop :=
  0 ≤ x.Start ∧ x.Start ≤ x.End ∧ x.End < MaxInt64 ∧ 0 ≤ x.PartNo ∧ x.PartNo < nparts

/-- The state of a stream between two `Read` calls: the cursor is on an entry
of the partition list with an open part reader, and `remaining` is what that
reader has left plus the bytes of the entries after the cursor (`post`). -/
def StreamInv {ρ : Type} (left : ρ → Nat) (r : Reader ρ) (post : List PartRange) : Prop :=
  ∃ pre cur rd, r.ranges = pre ++ cur :: post ∧ r.pos = pre.length ∧ r.reader = some rd ∧
    r.remaining = left rd + bytesOf post ∧ (∀ x ∈ post, GoodEntry r.parts.length x) ∧
    r.remaining ≤ MaxInt64 ∧ (r.ranges.length : Int) ≤ MaxInt64

/-- What happens to a recorder before `Shutdown`: a caller records an event,
the worker takes a step (with the choice of its `select`), or the context is
cancelled. -/
inductive Action where
  | record (eventType : EventType) (userID : Int) (source : Option String)
  | work (pickDone : Bool)
  | cancel
  deriving DecidableEq, Repr

/-- The recorder after a sequence of actions, together with the events that
were enqueued (those `Record` calls that found room), in the order of the calls.
A blocked worker step changes nothing. -/
def runActions (db : List Event → Event → CreateResult) :
    List Action → Recorder → List Event → Recorder × List Event
  | [], r, acc => (r, acc)
  | Action.record t u s :: rest, r, acc =>
    match r.Record t u s with
    | Outcome.ok r1 =>
      if r.events.length < 1000 then
        runActions db rest r1 (acc ++ [{ Typ := t, UserID := u, Source := s }])
      else runActions db rest r1 acc
    | _ => runActions db rest r acc
  | Action.work pick :: rest, r, acc =>
    match workerStep db pick r with
    | some r1 => runActions db rest r1 acc
    | none => runActions db rest r acc
  | Action.cancel :: rest, r, acc => runActions db rest { r with ctxDone := true } acc

/-- No call of `db.Create` panics. -/
def NeverPanics (db : List Event → Event → CreateResult) : Prop :=
  ∀ (before : List Event) (evt : Event) (value : String),
    db before evt ≠ CreateResult.panics value

/-- A `db.Create` that panics with value `"nil db"` at every call. -/
def panickingDb : List Event → Event → CreateResult :=
  fun _ _ => CreateResult.panics "nil db"

/-- A `db.Create` that fails with error `"locked"` on the events of user `0`
and succeeds on the others. -/
def flakyDb : List Event → Event → CreateResult :=
  fun _ evt => if evt.UserID = 0 then CreateResult.error "locked" else CreateResult.ok

/-- Successive `Record` calls with the given arguments. -/
def recordAll : List (EventType × Int × Option String) → Recorder → Outcome Recorder
  | [], r => Outcome.ok r
  | (t, u, s) :: rest, r =>
    match r.Record t u s with
    | Outcome.ok r1 => recordAll rest r1
    | o => o

/-- The given number of successive `Close` calls on a stream: the stream
afterwards and the external calls made, in order. -/
def closeTimes {ρ : Type} (env : Env ρ) : Nat → Reader ρ → Reader ρ × List (Call ρ)
  | 0, r => (r, [])
  | n + 1, r =>
    let s := Reader.Close env r
    let rest := closeTimes env n s.st
    (rest.1, s.calls ++ rest.2)

/-- The partition under the cursor, when the cursor is on one. -/
def currentRange {ρ : Type} (r : Reader ρ) : Option PartRange :=
  if 0 ≤ r.pos then r.ranges.get? r.pos.toNat else none

/-- The chunk source `getPartReader` builds for the part `part` (lines 143-150). -/
def chunkSourceOf {ρ : Type} (r : Reader ρ) (part : Part) : ChunkSource :=
  { channelId := r.file.ChannelId, partId := part.ID, concurrency := r.concurrency,
    key := ("files", "location", r.file.ID, part.ID) }

/-- External layers in which the chunk fetch fails with error `7` and the
decrypt layer opens a reader of `limit` bytes; a reader's state is the number
of bytes it has left. -/
def failingFetchEnv : Env Nat where
  newTGMultiReader := fun _ _ _ => (none, some (RErr.upstream 7))
  DecryptDataSeek := fun _ _ _ _ limit => (some limit.toNat, none)
  Read := fun left len => ((min len left, if left ≤ len then some RErr.EOF else none),
    left - min len left)
  Close := fun _ => none

/-- External layers whose part readers hold only 5 bytes whatever range is
asked for, and fail with error `1` every `Read` after the one that reported
end-of-stream. A reader's state is the number of bytes left, `none` once
end-of-stream has been reported. -/
def shortEnv : Env (Option Nat) where
  newTGMultiReader := fun _ _ _ => (some (some 5), none)
  DecryptDataSeek := fun _ _ _ _ _ => (some (some 5), none)
  Read := fun st len =>
    match st with
    | some left =>
      if left ≤ len then ((left, some RErr.EOF), none)
      else ((len, none), some (left - len))
    | none => ((0, some (RErr.upstream 1)), none)
  Close := fun _ => none

/-! ## Basic facts -/

theorem wrap64_of_int64 (x : Int) (h : IsInt64 x) : wrap64 x = x := by
  unfold IsInt64 MinInt64 MaxInt64 at h
  unfold wrap64
  omega

theorem wrap64_isInt64 (x : Int) : IsInt64 (wrap64 x) := by
  unfold IsInt64 MinInt64 MaxInt64 wrap64
  omega

theorem Index_ge (s : List Char) (c : Char) : -1 ≤ Index s c := by
  induction s with
  | nil => simp [Index]
  | cons a t ih =>
    unfold Index
    split
    · omega
    · split <;> omega

theorem Index_eq_neg_one_iff (s : List Char) (c : Char) : Index s c = -1 ↔ c ∉ s := by
  induction s with
  | nil => simp [Index]
  | cons a t ih =>
    have hge := Index_ge t c
    unfold Index
    by_cases hac : a = c
    · simp [hac]
    · have hca : ¬ c = a := fun h => hac h.symm
      by_cases ht : Index t c = -1
      · simp [hac, ht, hca, ih.mp ht]
      · have hmem : c ∈ t := by
          by_contra hn
          exact ht (ih.mpr hn)
        simp [hac, ht, hca, hmem]
        omega

theorem parseLoop_eq (arr : List (List Char)) (size : Int) (acc : List Range) :
    parseLoop arr size acc = acc ++ arr.filterMap (fun v => parseSpec v size) := by
  induction arr generalizing acc with
  | nil => simp [parseLoop]
  | cons v t ih =>
    unfold parseLoop
    cases hv : parseSpec v size with
    | none => simp [ih, hv]
    | some r => simp [ih, hv]

theorem parseChars_of_mem (header : List Char) (size : Int) (h : '=' ∈ header) :
    parseChars header size =
      if (specsOf header).filterMap (fun v => parseSpec v size) = [] then
        ([], some Err.ErrNoOverlap)
      else ((specsOf header).filterMap (fun v => parseSpec v size), none) := by
  have hi : ¬ Index header '=' = -1 := by
    rw [Index_eq_neg_one_iff]; simpa using h
  simp only [parseChars, hi, if_false, parseLoop_eq, List.nil_append, specsOf,
    List.length_eq_zero]

theorem parseChars_of_not_mem (header : List Char) (size : Int) (h : '=' ∉ header) :
    parseChars header size = ([], some Err.ErrInvalid) := by
  have hi : Index header '=' = -1 := (Index_eq_neg_one_iff _ _).mpr h
  simp [parseChars, hi]

theorem clampValidate_bounds (s e size : Int) (r : Range) (hsz : IsInt64 size)
    (hmin : size ≠ MinInt64) (h : clampValidate s e size = some r) :
    0 ≤ r.Start ∧ r.Start ≤ r.End ∧ r.End ≤ size - 1 := by
  have hw : wrap64 (size - 1) = size - 1 := by
    apply wrap64_of_int64
    unfold IsInt64 MinInt64 MaxInt64 at *
    omega
  unfold clampValidate at h
  rw [hw] at h
  simp only at h
  by_cases hc : s < 0 ∨ s > (if e ≥ size then size - 1 else e) ∨
      (if e ≥ size then size - 1 else e) < 0
  · rw [if_pos hc] at h
    exact absurd h (by simp)
  · rw [if_neg hc] at h
    simp only [Option.some.injEq] at h
    subst h
    simp only
    split at hc <;> split <;> omega

theorem rangeOfSides_bounds (s e : Int) (se ee : Option Err) (size : Int) (r : Range)
    (hsz : IsInt64 size) (hmin : size ≠ MinInt64)
    (h : rangeOfSides s e se ee size = some r) :
    0 ≤ r.Start ∧ r.Start ≤ r.End ∧ r.End ≤ size - 1 := by
  unfold rangeOfSides at h
  by_cases hc : se ≠ none ∧ ee ≠ none
  · rw [if_pos hc] at h
    exact absurd h (by simp)
  · rw [if_neg hc] at h
    cases hr : resolveSides s e se ee size with
    | none => rw [hr] at h; exact absurd h (by simp)
    | some p =>
      rw [hr] at h
      exact clampValidate_bounds _ _ size r hsz hmin h

theorem parseSpec_eq_rangeOfSides (v : List Char) (size : Int) (r : Range)
    (h : parseSpec v size = some r) :
    ∃ r0 r1, TrimSpace v ≠ [] ∧ Split (TrimSpace v) '-' = [r0, r1] ∧
      rangeOfSides (parseSide (TrimSpace r0) Err.emptyStart).1
        (parseSide (TrimSpace r1) Err.emptyEnd).1
        (parseSide (TrimSpace r0) Err.emptyStart).2
        (parseSide (TrimSpace r1) Err.emptyEnd).2 size = some r := by
  unfold parseSpec at h
  simp only at h
  by_cases hv : TrimSpace v = []
  · rw [if_pos hv] at h
    exact absurd h (by simp)
  · rw [if_neg hv] at h
    split at h
    · rename_i r0 r1 heq
      exact ⟨r0, r1, hv, heq, h⟩
    · exact absurd h (by simp)

theorem parseSpec_bounds (v : List Char) (size : Int) (r : Range) (hsz : IsInt64 size)
    (hmin : size ≠ MinInt64) (h : parseSpec v size = some r) :
    0 ≤ r.Start ∧ r.Start ≤ r.End ∧ r.End ≤ size - 1 := by
  obtain ⟨r0, r1, _, _, hr⟩ := parseSpec_eq_rangeOfSides v size r h
  exact rangeOfSides_bounds _ _ _ _ size r hsz hmin hr

/-- Everywhere but at the smallest `int64` size, every range `Parse` returns
lies inside the resource: `0 ≤ Start ≤ End ≤ size - 1`. -/
theorem Parse_ranges_within (header : String) (size : Int) (hsz : IsInt64 size)
    (hmin : size ≠ MinInt64) :
    ∀ r ∈ (Parse header size).1, 0 ≤ r.Start ∧ r.Start ≤ r.End ∧ r.End ≤ size - 1 := by
  intro r hr
  unfold Parse at hr
  by_cases hmem : '=' ∈ header.toList
  · rw [parseChars_of_mem _ _ hmem] at hr
    split at hr
    · simp at hr
    · simp only [List.mem_filterMap] at hr
      obtain ⟨v, _, hv⟩ := hr
      exact parseSpec_bounds v size r hsz hmin hv
  · rw [parseChars_of_not_mem _ _ hmem] at hr
    simp at hr

/-! ## Decimal numerals -/

theorem decimalFold_ge (s : List Char) (acc n : Nat) (h : decimalFold s acc = some n) :
    acc ≤ n := by
  induction s generalizing acc with
  | nil => simp [decimalFold] at h; omega
  | cons c cs ih =>
    unfold decimalFold at h
    cases hd : digitVal c with
    | none => rw [hd] at h; exact absurd h (by simp)
    | some d =>
      rw [hd] at h
      have := ih _ h
      omega

theorem decimalFold_digits (s : List Char) (acc n : Nat) (h : decimalFold s acc = some n) :
    ∀ c ∈ s, digitVal c ≠ none := by
  induction s generalizing acc with
  | nil => simp
  | cons c cs ih =>
    unfold decimalFold at h
    cases hd : digitVal c with
    | none => rw [hd] at h; exact absurd h (by simp)
    | some d =>
      rw [hd] at h
      intro x hx
      rcases List.mem_cons.mp hx with rfl | hx
      · simp [hd]
      · exact ih _ h x hx

theorem parseUintLoop_of_decimalFold (s : List Char) (acc n : Nat)
    (h : decimalFold s acc = some n) (hn : n < 18446744073709551616) :
    parseUintLoop s acc = (n, none) := by
  induction s generalizing acc with
  | nil => simp [decimalFold] at h; simp [parseUintLoop, h]
  | cons c cs ih =>
    unfold decimalFold at h
    unfold parseUintLoop
    cases hd : digitVal c with
    | none => rw [hd] at h; exact absurd h (by simp)
    | some d =>
      rw [hd] at h
      have hge := decimalFold_ge _ _ _ h
      have hlt : ¬ 18446744073709551616 ≤ acc * 10 + d := by omega
      simp only [hlt, if_false]
      exact ih _ h

theorem digitVal_digitChar (k : Nat) (hk : k < 10) : digitVal (Nat.digitChar k) = some k := by
  interval_cases k <;> decide

theorem decimalFold_toDigitsCore (fuel n : Nat) (ds : List Char) (h : n < fuel) :
    decimalFold (Nat.toDigitsCore 10 fuel n ds) 0 = decimalFold ds n := by
  induction fuel generalizing n ds with
  | zero => omega
  | succ f ih =>
    unfold Nat.toDigitsCore
    simp only
    have hd := digitVal_digitChar (n % 10) (Nat.mod_lt _ (by decide))
    by_cases h0 : n / 10 = 0
    · rw [if_pos h0]
      have hn : n % 10 = n := by omega
      rw [hn] at hd
      simp [decimalFold, hd, hn]
    · rw [if_neg h0]
      rw [ih (n / 10) _ (by omega)]
      have : n / 10 * 10 + n % 10 = n := by omega
      simp [decimalFold, hd, this]

theorem toDigitsCore_length_ge (fuel n : Nat) (ds : List Char) :
    ds.length ≤ (Nat.toDigitsCore 10 fuel n ds).length := by
  induction fuel generalizing n ds with
  | zero => simp [Nat.toDigitsCore]
  | succ f ih =>
    unfold Nat.toDigitsCore
    simp only
    split
    · simp
    · have := ih (n / 10) (Nat.digitChar (n % 10) :: ds)
      simp only [List.length_cons] at this
      omega

theorem toDigits_ne_nil (n : Nat) : Nat.toDigits 10 n ≠ [] := by
  intro h
  have hlen : (Nat.toDigits 10 n).length = 0 := by rw [h]; rfl
  unfold Nat.toDigits Nat.toDigitsCore at hlen
  simp only at hlen
  split at hlen
  · simp at hlen
  · have := toDigitsCore_length_ge n (n / 10) [Nat.digitChar (n % 10)]
    simp only [List.length_cons, List.length_nil] at this
    omega

theorem isDecimal_toDigits (n : Nat) : IsDecimal (Nat.toDigits 10 n) n := by
  refine ⟨toDigits_ne_nil n, ?_⟩
  unfold Nat.toDigits
  rw [decimalFold_toDigitsCore _ _ _ (by omega)]
  simp [decimalFold]

/-! ## Splitting and trimming -/

theorem Split_ne_nil (s : List Char) (sep : Char) : Split s sep ≠ [] := by
  cases s with
  | nil => simp [Split]
  | cons c cs =>
    unfold Split
    split
    · simp
    · split <;> simp

theorem Split_of_not_mem (s : List Char) (sep : Char) (h : sep ∉ s) : Split s sep = [s] := by
  induction s with
  | nil => simp [Split]
  | cons c cs ih =>
    have hc : ¬ c = sep := fun e => h (by simp [e])
    have ht : sep ∉ cs := fun e => h (by simp [e])
    unfold Split
    rw [if_neg hc, ih ht]

theorem Split_append (a rest : List Char) (sep : Char) (h : sep ∉ a) :
    Split (a ++ sep :: rest) sep = a :: Split rest sep := by
  induction a with
  | nil => simp [Split]
  | cons c cs ih =>
    have hc : ¬ c = sep := fun e => h (by simp [e])
    have ht : sep ∉ cs := fun e => h (by simp [e])
    rw [List.cons_append, Split, if_neg hc, ih ht]

theorem dropWhile_of_all_false (p : Char → Bool) (l : List Char)
    (h : ∀ c ∈ l, p c = false) : l.dropWhile p = l := by
  cases l with
  | nil => rfl
  | cons c cs => simp [List.dropWhile, h c (by simp)]

theorem TrimSpace_of_no_space (s : List Char) (h : ∀ c ∈ s, isSpace c = false) :
    TrimSpace s = s := by
  unfold TrimSpace
  rw [dropWhile_of_all_false _ s h, dropWhile_of_all_false _ s.reverse
    (fun c hc => h c (List.mem_reverse.mp hc)), List.reverse_reverse]

theorem TrimSpace_nil : TrimSpace [] = [] := rfl

theorem digit_props (c : Char) (h : digitVal c ≠ none) :
    isSpace c = false ∧ c ≠ '-' ∧ c ≠ ',' ∧ c ≠ '+' ∧ c ≠ '=' := by
  unfold digitVal at h
  split at h
  · rename_i hr
    refine ⟨?_, ?_, ?_, ?_, ?_⟩
    · unfold isSpace
      simp only [Bool.or_eq_false_iff, beq_eq_false_iff_ne, ne_eq, Bool.and_eq_false_imp,
        decide_eq_true_eq, decide_eq_false_iff_not]
      omega
    all_goals (intro e; subst e; revert hr; decide)
  · exact absurd rfl h

theorem isDecimal_props (s : List Char) (n : Nat) (h : IsDecimal s n) :
    ∀ c ∈ s, isSpace c = false ∧ c ≠ '-' ∧ c ≠ ',' ∧ c ≠ '+' ∧ c ≠ '=' :=
  fun c hc => digit_props c (decimalFold_digits s 0 n h.2 c hc)

theorem ParseInt_of_isDecimal (s : List Char) (n : Nat) (h : IsDecimal s n)
    (hn : (n : Int) ≤ MaxInt64) : ParseInt s = ((n : Int), none) := by
  have hp := isDecimal_props s n h
  obtain ⟨hne, hv⟩ := h
  unfold MaxInt64 at hn
  cases s with
  | nil => exact absurd rfl hne
  | cons c cs =>
    have hc := hp c (by simp)
    have hu : ParseUint (c :: cs) = (n, none) := by
      unfold ParseUint
      rw [if_neg (by simp)]
      exact parseUintLoop_of_decimalFold _ _ _ hv (by omega)
    unfold ParseInt
    have hneg : (c == '-') = false := by simp [hc.2.1]
    have hbody : (if c = '+' ∨ c = '-' then cs else c :: cs) = c :: cs := by
      rw [if_neg]
      rintro (e | e)
      · exact hc.2.2.2.1 e
      · exact hc.2.1 e
    simp only [hneg, hbody, hu]
    have h1 : ¬ (9223372036854775808 ≤ n) := by omega
    have hw : wrap64 (n : Int) = n := by
      apply wrap64_of_int64
      unfold IsInt64 MinInt64 MaxInt64
      omega
    simp [h1, hw]

theorem parseSide_of_isDecimal (s : List Char) (n : Nat) (e : Err) (h : IsDecimal s n)
    (hn : (n : Int) ≤ MaxInt64) : parseSide s e = ((n : Int), none) := by
  unfold parseSide
  rw [if_pos h.1, ParseInt_of_isDecimal s n h hn]
  rfl

theorem parseSide_nil (e : Err) : parseSide [] e = (0, some e) := by
  simp [parseSide]

theorem parseSpec_sides (x y : List Char) (size : Int)
    (hx : ∀ c ∈ x, isSpace c = false ∧ c ≠ '-')
    (hy : ∀ c ∈ y, isSpace c = false ∧ c ≠ '-') :
    parseSpec (x ++ '-' :: y) size =
      rangeOfSides (parseSide x Err.emptyStart).1 (parseSide y Err.emptyEnd).1
        (parseSide x Err.emptyStart).2 (parseSide y Err.emptyEnd).2 size := by
  have hall : ∀ c ∈ x ++ '-' :: y, isSpace c = false := by
    intro c hc
    rcases List.mem_append.mp hc with h | h
    · exact (hx c h).1
    · rcases List.mem_cons.mp h with rfl | h
      · decide
      · exact (hy c h).1
  have hsx : '-' ∉ x := fun h => (hx _ h).2 rfl
  have hsy : '-' ∉ y := fun h => (hy _ h).2 rfl
  unfold parseSpec
  simp only [TrimSpace_of_no_space _ hall]
  rw [if_neg (by simp), Split_append x y '-' hsx, Split_of_not_mem y '-' hsy]
  simp only [TrimSpace_of_no_space x (fun c hc => (hx c hc).1),
    TrimSpace_of_no_space y (fun c hc => (hy c hc).1)]

/-- The result of `Parse` on a header `bytes=<spec>` whose spec has no comma. -/
theorem parseChars_single (spec : List Char) (size : Int) (h : ',' ∉ spec) :
    parseChars ("bytes=".toList ++ spec) size =
      match parseSpec spec size with
      | none => ([], some Err.ErrNoOverlap)
      | some r => ([r], none) := by
  have hmem : '=' ∈ "bytes=".toList ++ spec := by
    apply List.mem_append_left
    decide
  have hs : specsOf ("bytes=".toList ++ spec) = [spec] := by
    have hi : Index ("bytes=".toList ++ spec) '=' = 5 := by
      show Index ('b' :: 'y' :: 't' :: 'e' :: 's' :: '=' :: spec) '=' = 5
      simp [Index]
    unfold specsOf
    rw [hi]
    show Split (List.drop 6 ('b' :: 'y' :: 't' :: 'e' :: 's' :: '=' :: spec)) ',' = [spec]
    simp only [List.drop_succ_cons, List.drop_zero]
    exact Split_of_not_mem spec ',' h
  rw [parseChars_of_mem _ _ hmem, hs]
  cases hp : parseSpec spec size <;> simp [hp]

/-! ## The three forms of a range spec -/

theorem toList_toString (n : Nat) : (toString n).toList = Nat.toDigits 10 n := rfl

theorem wrap64_pred (size : Int) (hsz : IsInt64 size) (hmin : size ≠ MinInt64) :
    wrap64 (size - 1) = size - 1 := by
  apply wrap64_of_int64
  unfold IsInt64 MinInt64 MaxInt64 at *
  omega

theorem clampValidate_eq (s e size : Int) (hw : wrap64 (size - 1) = size - 1) :
    clampValidate s e size =
      if 0 ≤ s ∧ s ≤ min e (size - 1) then some { Start := s, End := min e (size - 1) }
      else none := by
  unfold clampValidate
  rw [hw]
  have he : (if e ≥ size then size - 1 else e) = min e (size - 1) := by
    split_ifs <;> omega
  simp only [he]
  split_ifs <;> first | rfl | (exfalso; omega)

theorem rangeOfSides_explicit (a b size : Int) (ha : 0 ≤ a) (hsz : IsInt64 size)
    (hmin : size ≠ MinInt64) :
    rangeOfSides a b none none size =
      if a ≤ min b (size - 1) then some { Start := a, End := min b (size - 1) } else none := by
  have hw := wrap64_pred size hsz hmin
  simp only [rangeOfSides, resolveSides, ne_eq, not_true_eq_false, false_and, if_false]
  rw [clampValidate_eq _ _ _ hw]
  simp only [ha, true_and]

theorem rangeOfSides_open (a e size : Int) (ha : 0 ≤ a) (hsz : IsInt64 size)
    (hmin : size ≠ MinInt64) :
    rangeOfSides a e none (some Err.emptyEnd) size =
      if a ≤ size - 1 then some { Start := a, End := size - 1 } else none := by
  have hw := wrap64_pred size hsz hmin
  simp only [rangeOfSides, resolveSides, ne_eq, not_true_eq_false, false_and, if_false]
  simp only [reduceCtorEq, not_false_eq_true, if_true]
  rw [clampValidate_eq _ _ _ hw, hw]
  simp only [ha, true_and, min_self]

theorem rangeOfSides_suffix (s n size : Int) (hn : 0 ≤ n) (hsz : IsInt64 size) :
    rangeOfSides s n (some Err.emptyStart) none size =
      if 1 ≤ n ∧ 1 ≤ size then some { Start := max (size - n) 0, End := size - 1 }
      else none := by
  simp only [rangeOfSides, resolveSides, ne_eq, not_true_eq_false, and_false, if_false]
  simp only [reduceCtorEq, not_false_eq_true, if_true]
  by_cases h1 : 1 ≤ n ∧ 1 ≤ size
  · have hw : wrap64 (size - 1) = size - 1 := by
      apply wrap64_of_int64
      unfold IsInt64 MinInt64 MaxInt64 at *
      omega
    have he : (if n > size then size else n) = min n size := by
      split_ifs <;> omega
    have hw1 : wrap64 (size - min n size) = size - min n size := by
      apply wrap64_of_int64
      unfold IsInt64 MinInt64 MaxInt64 at *
      omega
    simp only [he, hw, hw1]
    rw [if_neg (by omega), if_neg (by omega), if_pos h1]
    simp only
    rw [clampValidate_eq _ _ _ hw]
    rw [if_pos (by omega)]
    have : size - min n size = max (size - n) 0 := by omega
    rw [this]
    simp
  · rw [if_neg h1, if_pos]
    split_ifs <;> omega

theorem toList_append (a b : String) : (a ++ b).toList = a.toList ++ b.toList := by
  simp [String.toList]

/-- The form `N-M` on numerals with leading zeros allowed. -/
theorem parseChars_explicit (sa sb : List Char) (a b : Nat) (size : Int)
    (hsa : IsDecimal sa a) (hsb : IsDecimal sb b)
    (ha : (a : Int) ≤ MaxInt64) (hb : (b : Int) ≤ MaxInt64)
    (hsz : IsInt64 size) (hmin : size ≠ MinInt64) :
    parseChars ("bytes=".toList ++ (sa ++ '-' :: sb)) size =
      if (a : Int) ≤ min (b : Int) (size - 1) then
        ([{ Start := a, End := min (b : Int) (size - 1) }], none)
      else ([], some Err.ErrNoOverlap) := by
  have hpa := isDecimal_props sa a hsa
  have hpb := isDecimal_props sb b hsb
  have hcomma : ',' ∉ sa ++ '-' :: sb := by
    intro h
    rcases List.mem_append.mp h with h | h
    · exact (hpa _ h).2.2.1 rfl
    · rcases List.mem_cons.mp h with h | h
      · exact absurd h (by decide)
      · exact (hpb _ h).2.2.1 rfl
  rw [parseChars_single _ _ hcomma,
    parseSpec_sides sa sb size (fun c hc => ⟨(hpa c hc).1, (hpa c hc).2.1⟩)
      (fun c hc => ⟨(hpb c hc).1, (hpb c hc).2.1⟩),
    parseSide_of_isDecimal sa a _ hsa ha, parseSide_of_isDecimal sb b _ hsb hb]
  simp only
  rw [rangeOfSides_explicit _ _ _ (by omega) hsz hmin]
  split_ifs <;> rfl

/-- The form `N-` on numerals with leading zeros allowed. -/
theorem parseChars_open (sa : List Char) (a : Nat) (size : Int)
    (hsa : IsDecimal sa a) (ha : (a : Int) ≤ MaxInt64)
    (hsz : IsInt64 size) (hmin : size ≠ MinInt64) :
    parseChars ("bytes=".toList ++ (sa ++ ['-'])) size =
      if (a : Int) ≤ size - 1 then ([{ Start := a, End := size - 1 }], none)
      else ([], some Err.ErrNoOverlap) := by
  have hpa := isDecimal_props sa a hsa
  have hcomma : ',' ∉ sa ++ ['-'] := by
    intro h
    rcases List.mem_append.mp h with h | h
    · exact (hpa _ h).2.2.1 rfl
    · rcases List.mem_cons.mp h with h | h
      · exact absurd h (by decide)
      · simp at h
  rw [parseChars_single _ _ hcomma,
    parseSpec_sides sa [] size (fun c hc => ⟨(hpa c hc).1, (hpa c hc).2.1⟩)
      (fun c hc => absurd hc (by simp)),
    parseSide_of_isDecimal sa a _ hsa ha, parseSide_nil]
  simp only
  rw [rangeOfSides_open _ _ _ (by omega) hsz hmin]
  split_ifs <;> rfl

/-- The form `-N` on numerals with leading zeros allowed. -/
theorem parseChars_suffix (sn : List Char) (n : Nat) (size : Int)
    (hsn : IsDecimal sn n) (hn : (n : Int) ≤ MaxInt64) (hsz : IsInt64 size) :
    parseChars ("bytes=".toList ++ ('-' :: sn)) size =
      if 1 ≤ n ∧ 1 ≤ size then
        ([{ Start := max (size - (n : Int)) 0, End := size - 1 }], none)
      else ([], some Err.ErrNoOverlap) := by
  have hpn := isDecimal_props sn n hsn
  have hcomma : ',' ∉ '-' :: sn := by
    intro h
    rcases List.mem_cons.mp h with h | h
    · exact absurd h (by decide)
    · exact (hpn _ h).2.2.1 rfl
  have hsp := parseSpec_sides [] sn size (fun c hc => absurd hc (by simp))
      (fun c hc => ⟨(hpn c hc).1, (hpn c hc).2.1⟩)
  rw [List.nil_append] at hsp
  rw [parseChars_single _ _ hcomma, hsp,
    parseSide_of_isDecimal sn n _ hsn hn, parseSide_nil]
  simp only
  rw [rangeOfSides_suffix _ _ _ (by omega) hsz]
  have : ((1 : Int) ≤ (n : Int) ∧ 1 ≤ size) ↔ (1 ≤ n ∧ 1 ≤ size) := by omega
  simp only [this]
  split_ifs <;> rfl

/-- Everywhere but at the smallest `int64` size: for decimal `a`, `b` in the
`int64` range, `Parse("bytes=a-b", size)` is the one range
`{a, min(b, size-1)}` when `a ≤ min(b, size-1)`, and `ErrNoOverlap` otherwise. -/
theorem Parse_explicit (a b : Nat) (size : Int)
    (ha : (a : Int) ≤ MaxInt64) (hb : (b : Int) ≤ MaxInt64)
    (hsz : IsInt64 size) (hmin : size ≠ MinInt64) :
    Parse ("bytes=" ++ toString a ++ "-" ++ toString b) size =
      if (a : Int) ≤ min (b : Int) (size - 1) then
        ([{ Start := a, End := min (b : Int) (size - 1) }], none)
      else ([], some Err.ErrNoOverlap) := by
  have hl : ("bytes=" ++ toString a ++ "-" ++ toString b).toList =
      "bytes=".toList ++ (Nat.toDigits 10 a ++ '-' :: Nat.toDigits 10 b) := by
    simp only [toList_append, toList_toString, List.append_assoc]
    rfl
  unfold Parse
  rw [hl]
  exact parseChars_explicit _ _ a b size (isDecimal_toDigits a) (isDecimal_toDigits b)
    ha hb hsz hmin

/-- Everywhere but at the smallest `int64` size: for decimal `n` in the
`int64` range, `Parse("bytes=n-", size)` is the one range `{n, size-1}` when
`n ≤ size-1`, and `ErrNoOverlap` otherwise. -/
theorem Parse_open (n : Nat) (size : Int) (hn : (n : Int) ≤ MaxInt64)
    (hsz : IsInt64 size) (hmin : size ≠ MinInt64) :
    Parse ("bytes=" ++ toString n ++ "-") size =
      if (n : Int) ≤ size - 1 then ([{ Start := n, End := size - 1 }], none)
      else ([], some Err.ErrNoOverlap) := by
  have hl : ("bytes=" ++ toString n ++ "-").toList =
      "bytes=".toList ++ (Nat.toDigits 10 n ++ ['-']) := by
    simp only [toList_append, toList_toString, List.append_assoc]
    rfl
  unfold Parse
  rw [hl]
  exact parseChars_open _ n size (isDecimal_toDigits n) hn hsz hmin

/-- C7: for every `int64` size and every decimal `n` in the `int64` range,
`Parse("bytes=-n", size)` is exactly the one range `{max(size-n, 0), size-1}`
(the last `min(n, size)` bytes) when `n ≥ 1` and `size ≥ 1`, and is
`ErrNoOverlap` when `n = 0` or `size ≤ 0`. -/
theorem Parse_suffix (n : Nat) (size : Int) (hn : (n : Int) ≤ MaxInt64)
    (hsz : IsInt64 size) :
    Parse ("bytes=-" ++ toString n) size =
      if 1 ≤ n ∧ 1 ≤ size then
        ([{ Start := max (size - (n : Int)) 0, End := size - 1 }], none)
      else ([], some Err.ErrNoOverlap) := by
  have hl : ("bytes=-" ++ toString n).toList =
      "bytes=".toList ++ ('-' :: Nat.toDigits 10 n) := by
    simp only [toList_append, toList_toString]
    rfl
  unfold Parse
  rw [hl]
  exact parseChars_suffix _ n size (isDecimal_toDigits n) hn hsz

theorem Parse_suffix_witness :
    ((500 : Nat) : Int) ≤ MaxInt64 ∧ IsInt64 1000 ∧
      Parse "bytes=-500" 1000 = ([{ Start := 500, End := 999 }], none) :=
  ⟨by decide, by decide, Parse_suffix 500 1000 (by decide) (by decide)⟩

/-! ## Header shape and the two errors -/

/-- C4: `Parse` returns `ErrInvalid` if and only if the header has no `=`;
a header without `=` yields no ranges and never `ErrNoOverlap`; a header with
`=` never yields `ErrInvalid`. -/
theorem Parse_ErrInvalid_iff (header : String) (size : Int) :
    ((Parse header size).2 = some Err.ErrInvalid ↔ '=' ∉ header.toList) ∧
    ('=' ∉ header.toList →
      (Parse header size).1 = [] ∧ (Parse header size).2 ≠ some Err.ErrNoOverlap) ∧
    ('=' ∈ header.toList → (Parse header size).2 ≠ some Err.ErrInvalid) := by
  unfold Parse
  by_cases hmem : '=' ∈ header.toList
  · have hne : (parseChars header.toList size).2 ≠ some Err.ErrInvalid := by
      rw [parseChars_of_mem _ _ hmem]
      split_ifs <;> simp
    exact ⟨⟨fun h => absurd h hne, fun h => absurd hmem h⟩, fun h => absurd hmem h,
      fun _ => hne⟩
  · rw [parseChars_of_not_mem _ _ hmem]
    exact ⟨⟨fun _ => hmem, fun _ => rfl⟩, fun _ => ⟨rfl, by decide⟩,
      fun h => absurd h hmem⟩

/-- C5: on a header with `=`, `Parse` returns either a non-empty list of ranges
and no error, or no ranges and `ErrNoOverlap`; it returns `ErrNoOverlap`
exactly when no spec after the first `=` produces a range; `ErrNoOverlap` and
`ErrInvalid` are different values; a successful result is never empty. -/
theorem Parse_result_shape (header : String) (size : Int) (h : '=' ∈ header.toList) :
    (((Parse header size).2 = none ∧ (Parse header size).1 ≠ []) ∨
      Parse header size = ([], some Err.ErrNoOverlap)) ∧
    ((Parse header size).2 = some Err.ErrNoOverlap ↔
      ∀ v ∈ specsOf header.toList, parseSpec v size = none) ∧
    Err.ErrNoOverlap ≠ Err.ErrInvalid ∧
    ((Parse header size).2 = none → (Parse header size).1 ≠ []) := by
  unfold Parse
  rw [parseChars_of_mem _ _ h]
  have hnil : (specsOf header.toList).filterMap (fun v => parseSpec v size) = [] ↔
      ∀ v ∈ specsOf header.toList, parseSpec v size = none := by
    simp [List.filterMap_eq_nil_iff]
  by_cases hc : (specsOf header.toList).filterMap (fun v => parseSpec v size) = []
  · rw [if_pos hc]
    refine ⟨Or.inr rfl, ?_, by decide, ?_⟩
    · simp only [true_iff]
      exact hnil.mp hc
    · intro h2
      simp at h2
  · rw [if_neg hc]
    refine ⟨Or.inl ⟨rfl, hc⟩, ?_, by decide, fun _ => hc⟩
    constructor
    · intro h2
      simp at h2
    · intro h2
      exact absurd (hnil.mpr h2) hc

theorem Parse_result_shape_witness :
    '=' ∈ "bytes=0-499".toList ∧
    (((Parse "bytes=0-499" 1000).2 = none ∧ (Parse "bytes=0-499" 1000).1 ≠ []) ∨
      Parse "bytes=0-499" 1000 = ([], some Err.ErrNoOverlap)) :=
  ⟨by decide, (Parse_result_shape "bytes=0-499" 1000 (by decide)).1⟩

/-! ## The smallest `int64` size -/

/-- C1, at the failing input: for `size = MinInt64` the expression `size - 1`
of lines 82 and 87 wraps to `MaxInt64`, and `Parse("bytes=5-", MinInt64)`
returns the range `{5, MaxInt64}` without error although `size - 1` is
negative. -/
theorem Parse_escapes_at_MinInt64 :
    Parse "bytes=5-" MinInt64 = ([{ Start := 5, End := MaxInt64 }], none) ∧
      ¬ (MaxInt64 ≤ MinInt64 - 1) := by
  decide

/-- C6, at the failing input: `Parse("bytes=0-5", MinInt64)` returns the range
`{0, MaxInt64}` although `0 > min(5, size - 1)`. -/
theorem Parse_explicit_at_MinInt64 :
    Parse "bytes=0-5" MinInt64 = ([{ Start := 0, End := MaxInt64 }], none) ∧
      ¬ ((0 : Int) ≤ min 5 (MinInt64 - 1)) := by
  decide

/-- C8, at the failing input: `Parse("bytes=0-", MinInt64)` returns the range
`{0, MaxInt64}` although `0 ≥ size`. -/
theorem Parse_open_at_MinInt64 :
    Parse "bytes=0-" MinInt64 = ([{ Start := 0, End := MaxInt64 }], none) ∧
      MinInt64 ≤ 0 := by
  decide

/-! ## Several specs in one header -/

theorem specsOf_bytes (rest : List Char) :
    specsOf ("bytes=".toList ++ rest) = Split rest ',' := by
  have hi : Index ("bytes=".toList ++ rest) '=' = 5 := by
    show Index ('b' :: 'y' :: 't' :: 'e' :: 's' :: '=' :: rest) '=' = 5
    simp [Index]
  unfold specsOf
  rw [hi]
  show Split (List.drop 6 ('b' :: 'y' :: 't' :: 'e' :: 's' :: '=' :: rest)) ',' = _
  simp only [List.drop_succ_cons, List.drop_zero]

theorem parseChars_bytes_fst (rest : List Char) (size : Int) :
    (parseChars ("bytes=".toList ++ rest) size).1 =
      (Split rest ',').filterMap (fun v => parseSpec v size) := by
  have hmem : '=' ∈ "bytes=".toList ++ rest := by
    apply List.mem_append_left
    decide
  rw [parseChars_of_mem _ _ hmem, specsOf_bytes]
  split_ifs with hc
  · rw [hc]
  · rfl

theorem intercalate_go_toList (acc : String) (l : List String) :
    (String.intercalate.go acc "," l).toList =
      acc.toList ++ (l.map (fun a => ',' :: a.toList)).flatten := by
  induction l generalizing acc with
  | nil => simp [String.intercalate.go]
  | cons a t ih =>
    simp only [String.intercalate.go, ih, toList_append, List.map_cons, List.flatten_cons,
      List.append_assoc]
    rfl

theorem Split_flatten (a : List Char) (l : List (List Char)) (ha : ',' ∉ a)
    (hl : ∀ s ∈ l, ',' ∉ s) :
    Split (a ++ (l.map (fun s => ',' :: s)).flatten) ',' = a :: l := by
  induction l generalizing a with
  | nil => simpa using Split_of_not_mem a ',' ha
  | cons b t ih =>
    simp only [List.map_cons, List.flatten_cons, List.cons_append]
    rw [Split_append a _ ',' ha, ih b (hl b (by simp)) (fun s hs => hl s (by simp [hs]))]

theorem filterMap_eq_flatten {α β : Type} (f : α → Option β) (l : List α) :
    l.filterMap f = (l.map (fun x => (f x).toList)).flatten := by
  induction l with
  | nil => rfl
  | cons a t ih =>
    rw [List.filterMap_cons, List.map_cons, List.flatten_cons, ← ih]
    cases f a <;> rfl

theorem Parse_single_fst (s : String) (size : Int) (h : ',' ∉ s.toList) :
    (Parse ("bytes=" ++ s) size).1 = (parseSpec s.toList size).toList := by
  unfold Parse
  rw [toList_append, parseChars_bytes_fst, Split_of_not_mem _ _ h]
  simp only [List.filterMap_cons, List.filterMap_nil]
  cases parseSpec s.toList size <;> rfl

theorem Split_intercalate_cons (a : String) (t : List String)
    (h : ∀ s ∈ a :: t, ',' ∉ s.toList) :
    Split (String.intercalate "," (a :: t)).toList ',' = (a :: t).map String.toList := by
  show Split (String.intercalate.go a "," t).toList ',' = _
  rw [intercalate_go_toList]
  have := Split_flatten a.toList (t.map String.toList) (h a (by simp))
    (by
      intro s hs
      obtain ⟨x, hx, rfl⟩ := List.mem_map.mp hs
      exact h x (by simp [hx]))
  rw [List.map_map] at this
  rw [List.map_cons]
  exact this

/-- C9: for specs without a comma, the ranges of `Parse("bytes=s1,...,sn")` are
the concatenation, in header order, of the ranges each `Parse("bytes=si")`
returns on its own, and each spec contributes at most one range. -/
theorem Parse_concat (specs : List String) (size : Int)
    (h : ∀ s ∈ specs, ',' ∉ s.toList ∧ '=' ∉ s.toList) :
    (Parse ("bytes=" ++ ",".intercalate specs) size).1 =
        (specs.map (fun s => (Parse ("bytes=" ++ s) size).1)).flatten ∧
      ∀ s ∈ specs, (Parse ("bytes=" ++ s) size).1.length ≤ 1 := by
  have hsingle : ∀ s ∈ specs, (Parse ("bytes=" ++ s) size).1 =
      (parseSpec s.toList size).toList :=
    fun s hs => Parse_single_fst s size (h s hs).1
  constructor
  · rw [List.map_congr_left hsingle]
    unfold Parse
    rw [toList_append, parseChars_bytes_fst]
    cases specs with
    | nil =>
      show List.filterMap _ (Split [] ',') = _
      simp [Split, parseSpec, TrimSpace]
    | cons a t =>
      rw [Split_intercalate_cons a t (fun s hs => (h s hs).1), filterMap_eq_flatten,
        List.map_map]
      rfl
  · intro s hs
    rw [hsingle s hs]
    cases parseSpec s.toList size <;> simp

theorem Parse_concat_witness :
    (∀ s ∈ ["0-99", "200-299"], ',' ∉ s.toList ∧ '=' ∉ s.toList) ∧
    (Parse "bytes=0-99,200-299" 1000).1 =
      [{ Start := 0, End := 99 }, { Start := 200, End := 299 }] :=
  ⟨by decide, (Parse_concat ["0-99", "200-299"] 1000 (by decide)).1⟩

/-! ## Malformed specs -/

theorem isRangeForm_chars (spec : List Char) (h : IsRangeForm spec) :
    ∀ c ∈ spec, c = '-' ∨ digitVal c ≠ none := by
  obtain ⟨n, m, hn, hf⟩ := h
  intro c hc
  rcases hf with ⟨hm, rfl⟩ | rfl | rfl
  · rcases List.mem_append.mp hc with h | h
    · exact Or.inr (hn.2 c h)
    · rcases List.mem_cons.mp h with h | h
      · exact Or.inl h
      · exact Or.inr (hm.2 c h)
  · rcases List.mem_append.mp hc with h | h
    · exact Or.inr (hn.2 c h)
    · simp at h; exact Or.inl h
  · rcases List.mem_cons.mp hc with h | h
    · exact Or.inl h
    · exact Or.inr (hn.2 c h)

theorem Split_length (s : List Char) (sep : Char) :
    (Split s sep).length = s.count sep + 1 := by
  induction s with
  | nil => simp [Split]
  | cons c cs ih =>
    rw [Split]
    by_cases hc : c = sep
    · rw [if_pos hc, List.length_cons, ih, hc, List.count_cons_self]
    · rw [if_neg hc]
      have hne := Split_ne_nil cs sep
      cases hs : Split cs sep with
      | nil => exact absurd hs hne
      | cons a t =>
        rw [hs] at ih
        simp only [List.length_cons] at ih ⊢
        rw [List.count_cons_of_ne (fun e => hc e.symm)]
        omega

theorem parseUintLoop_err (s : List Char) (acc : Nat) (h : ∃ c ∈ s, digitVal c = none) :
    (parseUintLoop s acc).2 ≠ none := by
  induction s generalizing acc with
  | nil => simp at h
  | cons a t ih =>
    rw [parseUintLoop]
    cases hd : digitVal a with
    | none => simp
    | some d =>
      simp only
      split_ifs
      · simp
      · apply ih
        obtain ⟨c, hc, hcd⟩ := h
        rcases List.mem_cons.mp hc with rfl | hc
        · rw [hd] at hcd; exact absurd hcd (by simp)
        · exact ⟨c, hc, hcd⟩

theorem parseUintLoop_range (s : List Char) (acc : Nat)
    (h : (parseUintLoop s acc).2 = some NumError.ErrRange) :
    (parseUintLoop s acc).1 = 18446744073709551615 := by
  induction s generalizing acc with
  | nil => simp [parseUintLoop] at h
  | cons a t ih =>
    rw [parseUintLoop] at h ⊢
    cases hd : digitVal a with
    | none => rw [hd] at h; simp at h
    | some d =>
      rw [hd] at h
      simp only at h ⊢
      split_ifs at h ⊢ with hc
      · rfl
      · exact ih _ h

theorem ParseInt_err (s : List Char)
    (h : ∃ c ∈ s, digitVal c = none ∧ c ≠ '+' ∧ c ≠ '-') : (ParseInt s).2 ≠ none := by
  obtain ⟨c, hc, hcd, hplus, hminus⟩ := h
  cases s with
  | nil => simp at hc
  | cons c0 cs =>
    have hbody : c ∈ (if c0 = '+' ∨ c0 = '-' then cs else c0 :: cs) := by
      split_ifs with hs
      · rcases List.mem_cons.mp hc with rfl | h
        · rcases hs with hs | hs
          · exact absurd hs hplus
          · exact absurd hs hminus
        · exact h
      · exact hc
    have hne : (if c0 = '+' ∨ c0 = '-' then cs else c0 :: cs) ≠ [] :=
      List.ne_nil_of_mem hbody
    have hu : (ParseUint (if c0 = '+' ∨ c0 = '-' then cs else c0 :: cs)).2 ≠ none := by
      unfold ParseUint
      rw [if_neg hne]
      exact parseUintLoop_err _ 0 ⟨c, hbody, hcd⟩
    have hr : (ParseUint (if c0 = '+' ∨ c0 = '-' then cs else c0 :: cs)).2 =
        some NumError.ErrRange →
        (ParseUint (if c0 = '+' ∨ c0 = '-' then cs else c0 :: cs)).1 =
          18446744073709551615 := by
      unfold ParseUint
      rw [if_neg hne]
      exact parseUintLoop_range _ 0
    unfold ParseInt
    simp only
    generalize ParseUint (if c0 = '+' ∨ c0 = '-' then cs else c0 :: cs) = res at hu hr
    obtain ⟨un, err⟩ := res
    simp only at hu hr ⊢
    cases err with
    | none => exact absurd rfl hu
    | some e =>
      cases e with
      | ErrSyntax => simp
      | ErrRange =>
        have := hr rfl
        subst this
        cases (c0 == '-') <;> simp

theorem parseSide_err (s : List Char) (e : Err) (h : SideNotNumeric s) :
    (parseSide (TrimSpace s) e).2 ≠ none := by
  unfold parseSide
  rcases h with h | h
  · rw [if_neg (by simpa using h)]
    simp
  · have hne : TrimSpace s ≠ [] := by
      obtain ⟨c, hc, _⟩ := h
      exact List.ne_nil_of_mem hc
    rw [if_pos hne]
    have := ParseInt_err _ h
    unfold liftNum
    simp only [ne_eq, Option.map_eq_none']
    exact this

theorem parseSpec_none_of_length (v : List Char) (size : Int)
    (h : (Split (TrimSpace v) '-').length ≠ 2) : parseSpec v size = none := by
  unfold parseSpec
  simp only
  split_ifs
  · rfl
  · split
    · rename_i heq
      rw [heq] at h
      simp at h
    · rfl

theorem parseSpec_of_malformed (v : List Char) (size : Int) (h : Malformed v) :
    parseSpec v size = none := by
  rcases h with h | h | ⟨x, y, hxy, hx, hy⟩
  · simp [parseSpec, h]
  · apply parseSpec_none_of_length
    rw [Split_length]
    omega
  · by_cases hlen : (Split (TrimSpace v) '-').length = 2
    · have hcount : (TrimSpace v).count '-' = 1 := by
        rw [Split_length] at hlen
        omega
      rw [hxy, List.count_append, List.count_cons_self] at hcount
      have hx0 : '-' ∉ x := by
        intro hm
        have := List.count_pos_iff.mpr hm
        omega
      have hy0 : '-' ∉ y := by
        intro hm
        have := List.count_pos_iff.mpr hm
        omega
      unfold parseSpec
      simp only
      rw [if_neg (by rw [hxy]; simp), hxy, Split_append x y '-' hx0, Split_of_not_mem y '-' hy0]
      simp only [rangeOfSides]
      rw [if_pos ⟨parseSide_err x _ hx, parseSide_err y _ hy⟩]
    · exact parseSpec_none_of_length v size hlen

/-- C10, as stated, fails: none of the specs `0 - 5`, `+7-8`, `abc-500` has one
of the forms `N-M`, `N-`, `-N`, yet `Parse("bytes=0 - 5,+7-8,abc-500", 1000)`
returns three ranges instead of `ErrNoOverlap`. -/
theorem Parse_nonform_specs_yield_ranges :
    (∀ s ∈ ["0 - 5".toList, "+7-8".toList, "abc-500".toList], ¬ IsRangeForm s) ∧
    Parse "bytes=0 - 5,+7-8,abc-500" 1000 =
      ([{ Start := 0, End := 5 }, { Start := 7, End := 8 }, { Start := 500, End := 999 }],
        none) := by
  refine ⟨?_, by decide⟩
  intro s hs hform
  have hchars := isRangeForm_chars s hform
  simp only [List.mem_cons, List.mem_singleton, List.not_mem_nil, or_false] at hs
  rcases hs with rfl | rfl | rfl
  · exact absurd (hchars ' ' (by decide)) (by decide)
  · exact absurd (hchars '+' (by decide)) (by decide)
  · exact absurd (hchars 'a' (by decide)) (by decide)

/-- C10, amended: a header `bytes=` followed by comma-separated specs each of
which is blank, or has no `-` or more than one, or has on neither side of its
`-` a number (each side blank or holding a character that is not a digit or a
sign), yields no ranges and `ErrNoOverlap`, for every size. -/
theorem Parse_malformed (specs : List String) (size : Int)
    (hc : ∀ s ∈ specs, ',' ∉ s.toList) (hm : ∀ s ∈ specs, Malformed s.toList) :
    Parse ("bytes=" ++ ",".intercalate specs) size = ([], some Err.ErrNoOverlap) := by
  have hmem : '=' ∈ ("bytes=" ++ ",".intercalate specs).toList := by
    rw [toList_append]
    apply List.mem_append_left
    decide
  unfold Parse
  rw [parseChars_of_mem _ _ hmem, toList_append, specsOf_bytes, if_pos]
  rw [List.filterMap_eq_nil_iff]
  intro v hv
  cases specs with
  | nil =>
    have : v = [] := by
      have hv2 : v ∈ Split [] ',' := hv
      simpa [Split] using hv2
    subst this
    rfl
  | cons a t =>
    rw [Split_intercalate_cons a t hc] at hv
    obtain ⟨s, hs, rfl⟩ := List.mem_map.mp hv
    exact parseSpec_of_malformed _ size (hm s hs)

theorem Parse_malformed_witness :
    (∀ s ∈ ["abc-def"], ',' ∉ s.toList) ∧ (∀ s ∈ ["abc-def"], Malformed s.toList) ∧
    Parse "bytes=abc-def" 1000 = ([], some Err.ErrNoOverlap) :=
  have hm : ∀ s ∈ ["abc-def"], Malformed s.toList := by
    intro s hs
    simp only [List.mem_singleton] at hs
    subst hs
    refine Or.inr (Or.inr ⟨"abc".toList, "def".toList, by decide, ?_, ?_⟩)
    · exact Or.inr ⟨'a', by decide, by decide, by decide, by decide⟩
    · exact Or.inr ⟨'d', by decide, by decide, by decide, by decide⟩
  ⟨by decide, hm, Parse_malformed ["abc-def"] 1000 (by decide) hm⟩

/-! ## Partitioning a range over the parts -/

theorem mul_bounds (p S x : Int) (hS : 1 ≤ S) (hp0 : 0 ≤ p) (hp : p ≤ x / S) :
    0 ≤ p * S ∧ p * S ≤ x := by
  have h1 : p * S ≤ x / S * S := Int.mul_le_mul_of_nonneg_right hp (by omega)
  have h2 : x / S * S ≤ x := Int.ediv_mul_le x (by omega)
  have h3 : 0 ≤ p * S := Int.mul_nonneg hp0 (by omega)
  omega

theorem rangesLoop_eq (start endv S : Int) (hS : 1 ≤ S) (hS64 : S ≤ MaxInt64)
    (h0 : 0 ≤ start) (hse : start ≤ endv) (hend : endv ≤ MaxInt64)
    (hno : endv / S < MaxInt64) (n : Nat) :
    ∀ (part : Int) (acc : List PartRange) (fuel : Nat), 0 ≤ part →
      part + n = endv / S + 1 → n + 1 ≤ fuel →
      rangesLoop fuel start endv S (endv / S) part acc =
        some (acc ++ (List.range n).map
          (fun (k : Nat) => partEntry start endv S (part + (k : Int)))) := by
  induction n with
  | zero =>
    intro part acc fuel hp hpn hf
    obtain ⟨f, rfl⟩ : ∃ f, fuel = f + 1 := ⟨fuel - 1, by omega⟩
    rw [rangesLoop, if_neg (by omega)]
    simp
  | succ n ih =>
    intro part acc fuel hp hpn hf
    obtain ⟨f, rfl⟩ : ∃ f, fuel = f + 1 := ⟨fuel - 1, by omega⟩
    have hle : part ≤ endv / S := by omega
    obtain ⟨hm0, hm1⟩ := mul_bounds part S endv hS hp hle
    unfold MaxInt64 at *
    have hw1 : wrap64 (part * S) = part * S := by
      apply wrap64_of_int64; unfold IsInt64 MinInt64 MaxInt64; omega
    have hw2 : wrap64 (start - part * S) = start - part * S := by
      apply wrap64_of_int64; unfold IsInt64 MinInt64 MaxInt64; omega
    have hw3 : wrap64 (S - 1) = S - 1 := by
      apply wrap64_of_int64; unfold IsInt64 MinInt64 MaxInt64; omega
    have hw4 : wrap64 (endv - part * S) = endv - part * S := by
      apply wrap64_of_int64; unfold IsInt64 MinInt64 MaxInt64; omega
    have hw5 : wrap64 (part + 1) = part + 1 := by
      apply wrap64_of_int64; unfold IsInt64 MinInt64 MaxInt64; omega
    rw [rangesLoop, if_pos hle]
    simp only [hw1, hw2, hw3, hw4, hw5]
    rw [ih (part + 1) _ f (by omega) (by omega) (by omega)]
    rw [List.range_succ_eq_map, List.map_cons, List.map_map, List.append_assoc]
    congr 2
    simp only [List.singleton_append, partEntry, Nat.cast_zero, add_zero, List.cons.injEq,
      true_and]
    apply List.map_congr_left
    intro k _
    simp only [Function.comp, Nat.succ_eq_add_one, Nat.cast_add, Nat.cast_one]
    congr 1 <;> ring_nf


theorem ediv_facts (x S : Int) (hS : 1 ≤ S) :
    x / S * S ≤ x ∧ x < x / S * S + S := by
  have h1 : x / S * S ≤ x := Int.ediv_mul_le x (by omega)
  have h2 : x < (x / S + 1) * S := Int.lt_ediv_add_one_mul_self x (by omega)
  have h3 : (x / S + 1) * S = x / S * S + S := by ring
  omega

theorem mul_mono (a b S : Int) (h : a ≤ b) (hS : 1 ≤ S) : a * S ≤ b * S :=
  Int.mul_le_mul_of_nonneg_right h (by omega)

theorem partEntry_first (start endv S : Int) (hS : 1 ≤ S) :
    (partEntry start endv S (start / S)).PartNo * S + (partEntry start endv S (start / S)).Start
      = start := by
  have := ediv_facts start S hS
  simp only [partEntry]
  omega

theorem partEntry_last (start endv S : Int) (hS : 1 ≤ S) :
    (partEntry start endv S (endv / S)).PartNo * S + (partEntry start endv S (endv / S)).End
      = endv := by
  have := ediv_facts endv S hS
  simp only [partEntry]
  omega

theorem partEntry_next (start endv S p : Int) (hS : 1 ≤ S) (h1 : start / S ≤ p)
    (h2 : p < endv / S) :
    (partEntry start endv S (p + 1)).PartNo * S + (partEntry start endv S (p + 1)).Start =
      (partEntry start endv S p).PartNo * S + (partEntry start endv S p).End + 1 := by
  have hs := ediv_facts start S hS
  have he := ediv_facts endv S hS
  have m1 := mul_mono (start / S + 1) (p + 1) S (by omega) hS
  have m2 := mul_mono (p + 1) (endv / S) S (by omega) hS
  have e1 : (start / S + 1) * S = start / S * S + S := by ring
  have e2 : (p + 1) * S = p * S + S := by ring
  simp only [partEntry]
  rw [e1] at m1
  rw [e2] at m1 m2 ⊢
  omega

theorem ediv_mono (a b S : Int) (h : a ≤ b) (hS : 1 ≤ S) : a / S ≤ b / S :=
  Int.ediv_le_ediv (by omega) h

theorem calculatePartByteRanges_eq (start endv S : Int) (hS : 1 ≤ S)
    (hS64 : S ≤ MaxInt64) (h0 : 0 ≤ start) (hse : start ≤ endv) (hend : endv ≤ MaxInt64)
    (hno : endv / S < MaxInt64) (fuel : Nat)
    (hf : (endv / S - start / S + 2).toNat ≤ fuel) :
    calculatePartByteRanges fuel start endv S = Outcome.ok (expectedRanges start endv S) := by
  have hdiv := ediv_mono start endv S hse hS
  have hsp0 : 0 ≤ start / S := Int.ediv_nonneg h0 (by omega)
  have ht1 : Int.tdiv start S = start / S := Int.tdiv_eq_ediv h0 (by omega)
  have ht2 : Int.tdiv endv S = endv / S := Int.tdiv_eq_ediv (by omega) (by omega)
  have hw1 : wrap64 (start / S) = start / S := by
    apply wrap64_of_int64; unfold IsInt64 MinInt64 MaxInt64 at *; omega
  have hw2 : wrap64 (endv / S) = endv / S := by
    apply wrap64_of_int64; unfold IsInt64 MinInt64 MaxInt64 at *; omega
  unfold calculatePartByteRanges
  rw [if_neg (by omega)]
  simp only [ht1, ht2, hw1, hw2]
  rw [rangesLoop_eq start endv S hS hS64 h0 hse hend hno
    (endv / S - start / S + 1).toNat (start / S) [] fuel hsp0 (by omega) (by omega)]
  simp [expectedRanges]

/-- Everywhere but where the loop counter would pass the largest `int64`
(`end / S = MaxInt64`, i.e. `S = 1` and `end = MaxInt64`):
`calculatePartByteRanges(start, end, S)` returns, given enough fuel, exactly
`end/S - start/S + 1` entries; entry `i` has `PartNo = start/S + i`; the first
absolute span begins at `start`, the last ends at `end`, and each following
span begins one byte after the previous one ends. -/
theorem calculatePartByteRanges_partition (start endv S : Int) (hS : 1 ≤ S)
    (hS64 : S ≤ MaxInt64) (h0 : 0 ≤ start) (hse : start ≤ endv) (hend : endv ≤ MaxInt64)
    (hno : endv / S < MaxInt64) :
    ∃ rs : List PartRange,
      (∀ fuel, (endv / S - start / S + 2).toNat ≤ fuel →
        calculatePartByteRanges fuel start endv S = Outcome.ok rs) ∧
      (rs.length : Int) = endv / S - start / S + 1 ∧
      ∀ i, i < rs.length → ∃ x, rs.get? i = some x ∧
        x.PartNo = start / S + i ∧
        (i = 0 → x.PartNo * S + x.Start = start) ∧
        (i + 1 = rs.length → x.PartNo * S + x.End = endv) ∧
        (∀ y, rs.get? (i + 1) = some y →
          y.PartNo * S + y.Start = x.PartNo * S + x.End + 1) := by
  have hdiv := ediv_mono start endv S hse hS
  have hn : ((endv / S - start / S + 1).toNat : Int) = endv / S - start / S + 1 :=
    Int.toNat_of_nonneg (by omega)
  refine ⟨expectedRanges start endv S,
    fun fuel hf => calculatePartByteRanges_eq start endv S hS hS64 h0 hse hend hno fuel hf,
    ?_, ?_⟩
  · simp only [expectedRanges, List.length_map, List.length_range]
    exact hn
  · intro i hi
    simp only [expectedRanges, List.length_map, List.length_range] at hi
    refine ⟨partEntry start endv S (start / S + (i : Int)), ?_, rfl, ?_, ?_, ?_⟩
    · simp [expectedRanges, List.getElem?_map, List.getElem?_range hi]
    · intro hi0
      subst hi0
      simpa using partEntry_first start endv S hS
    · intro hlast
      simp only [expectedRanges, List.length_map, List.length_range] at hlast
      have : start / S + (i : Int) = endv / S := by omega
      rw [this]
      exact partEntry_last start endv S hS
    · intro y hy
      have hi1 : i + 1 < (endv / S - start / S + 1).toNat := by
        by_contra hc
        have : (expectedRanges start endv S).get? (i + 1) = none := by
          apply List.get?_eq_none.mpr
          simp only [expectedRanges, List.length_map, List.length_range]
          omega
        rw [this] at hy
        exact absurd hy (by simp)
      have hy2 : y = partEntry start endv S (start / S + ((i + 1 : Nat) : Int)) := by
        simp [expectedRanges, List.getElem?_map, List.getElem?_range hi1] at hy
        exact hy.symm
      subst hy2
      have := partEntry_next start endv S (start / S + (i : Int)) hS (by omega) (by omega)
      simpa [add_assoc] using this

theorem calculatePartByteRanges_partition_witness :
    ∃ rs : List PartRange,
      (∀ fuel, ((25 : Int) / 10 - 5 / 10 + 2).toNat ≤ fuel →
        calculatePartByteRanges fuel 5 25 10 = Outcome.ok rs) ∧
      (rs.length : Int) = 25 / 10 - 5 / 10 + 1 :=
  have h := calculatePartByteRanges_partition 5 25 10 (by decide) (by decide) (by decide)
    (by decide) (by decide) (by decide)
  ⟨h.choose, h.choose_spec.1, h.choose_spec.2.1⟩

theorem bytesOf_entries (start endv S : Int) (hS : 1 ≤ S) (m : Nat) :
    ∀ p : Int, start / S ≤ p → p + m = endv / S →
      bytesOf ((List.range (m + 1)).map
        (fun (k : Nat) => partEntry start endv S (p + (k : Int)))) =
        endv - max start (p * S) + 1 := by
  have hs := ediv_facts start S hS
  have he := ediv_facts endv S hS
  induction m with
  | zero =>
    intro p hp hpm
    have hpe : p = endv / S := by omega
    have m1 := mul_mono (start / S) p S hp hS
    subst hpe
    have hr : List.range (0 + 1) = [0] := rfl
    rw [hr]
    simp only [bytesOf, partEntry, List.map_cons, List.map_nil,
      Nat.cast_zero, add_zero, List.sum_cons, List.sum_nil]
    omega
  | succ m ih =>
    intro p hp hpm
    have m1 := mul_mono (start / S) p S hp hS
    have m2 := mul_mono (p + 1) (endv / S) S (by omega) hS
    have m3 := mul_mono (start / S + 1) (p + 1) S (by omega) hS
    have e1 : (start / S + 1) * S = start / S * S + S := by ring
    have e2 : (p + 1) * S = p * S + S := by ring
    rw [e1] at m3
    rw [e2] at m2 m3
    have ihp := ih (p + 1) (by omega) (by omega)
    rw [e2] at ihp
    rw [List.range_succ_eq_map, List.map_cons, List.map_map]
    have hfun : ((fun (k : Nat) => partEntry start endv S (p + (k : Int))) ∘ Nat.succ) =
        (fun (k : Nat) => partEntry start endv S (p + 1 + (k : Int))) := by
      funext k
      simp only [Function.comp, Nat.succ_eq_add_one, Nat.cast_add, Nat.cast_one]
      congr 1
      ring
    rw [hfun]
    unfold bytesOf at ihp ⊢
    rw [List.map_cons, List.sum_cons, ihp]
    simp only [partEntry, Nat.cast_zero, add_zero]
    omega

theorem bytesOf_expectedRanges (start endv S : Int) (hS : 1 ≤ S) (hse : start ≤ endv) :
    bytesOf (expectedRanges start endv S) = endv - start + 1 := by
  have hdiv := ediv_mono start endv S hse hS
  have hs := ediv_facts start S hS
  obtain ⟨m, hm⟩ : ∃ m : Nat, (endv / S - start / S + 1).toNat = m + 1 :=
    ⟨(endv / S - start / S).toNat, by omega⟩
  unfold expectedRanges
  rw [hm, bytesOf_entries start endv S hS m (start / S) (le_refl _) (by omega)]
  omega

theorem expectedRanges_good (start endv S : Int) (hS : 1 ≤ S) (h0 : 0 ≤ start)
    (hse : start ≤ endv) :
    ∀ x ∈ expectedRanges start endv S,
      0 ≤ x.Start ∧ x.Start ≤ x.End ∧ x.End ≤ S - 1 ∧ 0 ≤ x.PartNo ∧ x.PartNo ≤ endv / S := by
  intro x hx
  have hdiv := ediv_mono start endv S hse hS
  have hsp0 : 0 ≤ start / S := Int.ediv_nonneg h0 (by omega)
  have hs := ediv_facts start S hS
  have he := ediv_facts endv S hS
  simp only [expectedRanges, List.mem_map, List.mem_range] at hx
  obtain ⟨k, hk, rfl⟩ := hx
  have m1 := mul_mono (start / S) (start / S + k) S (by omega) hS
  have m2 := mul_mono (start / S + k) (endv / S) S (by omega) hS
  have m0 : 0 ≤ (start / S + k) * S := Int.mul_nonneg (by omega) (by omega)
  simp only [partEntry]
  refine ⟨by omega, ?_, by omega, by omega, by omega⟩
  by_cases hk0 : k = 0
  · subst hk0
    simp only [Nat.cast_zero, add_zero] at *
    omega
  · have m3 := mul_mono (start / S + 1) (start / S + k) S (by omega) hS
    have e1 : (start / S + 1) * S = start / S * S + S := by ring
    rw [e1] at m3
    omega

theorem expectedRanges_ne_nil (start endv S : Int) (hS : 1 ≤ S) (hse : start ≤ endv) :
    expectedRanges start endv S ≠ [] := by
  have hdiv := ediv_mono start endv S hse hS
  intro h
  have hl : (expectedRanges start endv S).length = 0 := by rw [h]; rfl
  simp only [expectedRanges, List.length_map, List.length_range] at hl
  omega

/-- C2, at the failing input: with `end = MaxInt64` and part size `1` the loop
bound `endPart` is `MaxInt64`, the test `part <= endPart` holds for every
`int64`, the increment wraps around, and `calculatePartByteRanges` returns for
no amount of fuel, although the claim promises a list of one entry. -/
theorem calculatePartByteRanges_diverges (fuel : Nat) :
    calculatePartByteRanges fuel MaxInt64 MaxInt64 1 = Outcome.timeout ∧
      MaxInt64 / 1 - MaxInt64 / 1 + 1 = 1 := by
  have hloop : ∀ (fuel : Nat) (part : Int) (acc : List PartRange), part ≤ MaxInt64 →
      rangesLoop fuel MaxInt64 MaxInt64 1 MaxInt64 part acc = none := by
    intro fuel
    induction fuel with
    | zero => intro part acc _; rfl
    | succ f ih =>
      intro part acc hp
      rw [rangesLoop, if_pos hp]
      apply ih
      exact (wrap64_isInt64 _).2
  refine ⟨?_, by decide⟩
  unfold calculatePartByteRanges
  rw [if_neg (by decide)]
  have hend : wrap64 (Int.tdiv MaxInt64 1) = MaxInt64 := by decide
  simp only [hend]
  rw [hloop fuel MaxInt64 [] (le_refl _)]


/-! ## Reading a stream to its end -/

theorem getPartReader_good {ρ : Type} (env : Env ρ) (left : ρ → Nat) (hd : Delivers env left)
    (r : Reader ρ) (pre post : List PartRange) (cur : PartRange)
    (hr : r.ranges = pre ++ cur :: post) (hpos : r.pos = pre.length)
    (hg : GoodEntry r.parts.length cur) :
    ∃ rd calls, getPartReader env r = Outcome.ok ((some rd, none), calls) ∧
      (left rd : Int) = cur.End - cur.Start + 1 := by
  obtain ⟨g1, g2, g3, g4, g5⟩ := hg
  have hlen : r.ranges.length = pre.length + 1 + post.length := by
    rw [hr]; simp; omega
  have hget : r.ranges.get? r.pos.toNat = some cur := by
    rw [hr, hpos]
    simp only [Int.toNat_ofNat]
    rw [List.get?_eq_getElem?, List.getElem?_append_right (le_refl _)]
    simp
  have hpn : cur.PartNo.toNat < r.parts.length := by omega
  obtain ⟨part, hpart⟩ : ∃ part, r.parts.get? cur.PartNo.toNat = some part :=
    ⟨r.parts.get ⟨_, hpn⟩, List.get?_eq_get hpn⟩
  unfold getPartReader
  rw [if_neg (by omega), if_neg (by omega)]
  simp only [hget]
  rw [if_neg (by omega)]
  simp only [hpart]
  unfold MaxInt64 at g3
  have hw : wrap64 (wrap64 (cur.End - cur.Start) + 1) = cur.End - cur.Start + 1 := by
    rw [wrap64_of_int64 (cur.End - cur.Start) (by unfold IsInt64 MinInt64 MaxInt64; omega)]
    exact wrap64_of_int64 _ (by unfold IsInt64 MinInt64 MaxInt64; omega)
  by_cases henc : r.file.Encrypted = true
  · rw [if_pos henc, if_neg (by omega), hw]
    obtain ⟨rd, hrd, hl⟩ := hd.decrypt r.encryptionKey part.Salt
      (decryptCallback env r
        { channelId := r.file.ChannelId, partId := part.ID, concurrency := r.concurrency,
          key := ("files", "location", r.file.ID, part.ID) })
      cur.Start (cur.End - cur.Start + 1) g1 (by omega)
    exact ⟨rd, _, by rw [hrd], hl⟩
  · rw [if_neg henc]
    obtain ⟨rd, hrd, hl⟩ := hd.fetch cur.Start cur.End
      { channelId := r.file.ChannelId, partId := part.ID, concurrency := r.concurrency,
        key := ("files", "location", r.file.ID, part.ID) } g1 g2
    exact ⟨rd, _, by rw [hrd], hl⟩

theorem initializeReader_good {ρ : Type} (env : Env ρ) (left : ρ → Nat)
    (hd : Delivers env left) (r : Reader ρ) (pre post : List PartRange) (cur : PartRange)
    (hr : r.ranges = pre ++ cur :: post) (hpos : r.pos = pre.length)
    (hg : GoodEntry r.parts.length cur) :
    ∃ rd calls, initializeReader env r =
        Outcome.ok { val := none, st := { r with reader := some rd }, calls := calls } ∧
      (left rd : Int) = cur.End - cur.Start + 1 := by
  obtain ⟨rd, calls, hgp, hl⟩ := getPartReader_good env left hd r pre post cur hr hpos hg
  refine ⟨rd, calls, ?_, hl⟩
  unfold initializeReader
  rw [hgp]
  simp


theorem bytesOf_cons (x : PartRange) (t : List PartRange) :
    bytesOf (x :: t) = x.End - x.Start + 1 + bytesOf t := by
  simp [bytesOf]

theorem bytesOf_ge_length (n : Nat) (l : List PartRange) (h : ∀ x ∈ l, GoodEntry n x) :
    (l.length : Int) ≤ bytesOf l := by
  induction l with
  | nil => simp [bytesOf]
  | cons x t ih =>
    have hx := h x (by simp)
    have ht := ih (fun y hy => h y (by simp [hy]))
    rw [bytesOf_cons, List.length_cons]
    obtain ⟨_, g2, _⟩ := hx
    push_cast
    omega

theorem moveToNextPart_good {ρ : Type} (env : Env ρ) (left : ρ → Nat)
    (hd : Delivers env left) (r : Reader ρ) (pre post : List PartRange)
    (cur nxt : PartRange) (rd : ρ)
    (hr : r.ranges = pre ++ cur :: nxt :: post) (hpos : r.pos = pre.length)
    (hrd : r.reader = some rd) (hg : GoodEntry r.parts.length nxt)
    (hmax : (r.ranges.length : Int) ≤ MaxInt64) :
    ∃ rd2 calls, moveToNextPart env r =
        Outcome.ok { val := none,
                     st := { r with pos := (pre.length : Int) + 1, reader := some rd2 },
                     calls := calls } ∧
      (left rd2 : Int) = nxt.End - nxt.Start + 1 := by
  obtain ⟨file, parts, ranges, pos, reader, remaining, key, conc⟩ := r
  simp only at hr hpos hrd hg hmax
  subst hr hpos hrd
  have hlen : (pre ++ cur :: nxt :: post).length = pre.length + 2 + post.length := by
    simp; omega
  have hw : wrap64 ((pre.length : Int) + 1) = (pre.length : Int) + 1 := by
    apply wrap64_of_int64
    unfold IsInt64 MinInt64
    omega
  obtain ⟨rd2, calls, hinit, hl⟩ := initializeReader_good env left hd
    { file := file, parts := parts, ranges := pre ++ cur :: nxt :: post,
      pos := (pre.length : Int) + 1, reader := some rd, remaining := remaining,
      encryptionKey := key, concurrency := conc } (pre ++ [cur]) post nxt
    (by simp) (by simp) hg
  refine ⟨rd2, Call.Close rd :: calls, ?_, hl⟩
  unfold moveToNextPart
  dsimp only
  rw [hw, if_pos (by omega), hinit]

theorem Read_exhausted {ρ : Type} (env : Env ρ) (r : Reader ρ) (len : Nat)
    (h : r.remaining ≤ 0) :
    Reader.Read env r len =
      Outcome.ok { val := (0, some RErr.EOF), st := r, calls := [] } := by
  unfold Reader.Read
  rw [if_pos h]


theorem Read_step {ρ : Type} (env : Env ρ) (left : ρ → Nat) (hd : Delivers env left)
    (r : Reader ρ) (post : List PartRange) (len : Nat) (hlen : 1 ≤ len)
    (hinv : StreamInv left r post) :
    ∃ s, Reader.Read env r len = Outcome.ok s ∧
      (s.val.1 : Int) + s.st.remaining = r.remaining ∧
      ((s.val.2 = some RErr.EOF ∧ s.st.remaining = 0) ∨
       (s.val.2 = none ∧ ∃ post2, StreamInv left s.st post2 ∧
          s.st.remaining + post2.length < r.remaining + post.length)) := by
  obtain ⟨pre, cur, rd, hr, hpos, hrd, hrem, hgood, hmax, hlmax⟩ := hinv
  have hbl := bytesOf_ge_length _ post hgood
  by_cases h0 : r.remaining ≤ 0
  · refine ⟨_, Read_exhausted env r len h0, ?_, Or.inl ⟨rfl, ?_⟩⟩
    · simp
    · simp only
      omega
  · obtain ⟨file, parts, ranges, pos, reader, remaining, key, conc⟩ := r
    simp only at hr hpos hrd hrem hgood hmax hlmax h0
    subst hr hpos hrd
    unfold MaxInt64 at hmax
    unfold Reader.Read
    dsimp only
    rw [if_neg h0]
    by_cases hl : left rd = 0
    · -- the part reader is drained: it reports end-of-stream with no bytes
      obtain ⟨hres, hleft⟩ := hd.read_done rd len hl
      have hn : (env.Read rd len).1.1 = 0 := by rw [hres]
      have he : (env.Read rd len).1.2 = some RErr.EOF := by rw [hres]
      have hw : wrap64 (remaining - ((0 : Nat) : Int)) = remaining := by
        simp only [Nat.cast_zero, sub_zero]
        apply wrap64_of_int64
        unfold IsInt64 MinInt64 MaxInt64
        omega
      rw [hn, he, hw, if_pos ⟨rfl, by omega⟩]
      cases post with
      | nil =>
        simp only [bytesOf, List.map_nil, List.sum_nil] at hrem
        omega
      | cons nxt post2 =>
        obtain ⟨rd2, calls, hmove, hl2⟩ := moveToNextPart_good env left hd
          { file := file, parts := parts, ranges := pre ++ cur :: nxt :: post2,
            pos := (pre.length : Int), reader := some (env.Read rd len).2,
            remaining := remaining, encryptionKey := key, concurrency := conc }
          pre post2 cur nxt (env.Read rd len).2 rfl rfl rfl (hgood nxt (by simp)) hlmax
        rw [hmove]
        refine ⟨_, rfl, ?_, Or.inr ⟨rfl, post2, ?_, ?_⟩⟩
        · simp
        · refine ⟨pre ++ [cur], nxt, rd2, by simp, by simp, rfl, ?_,
            fun x hx => hgood x (by simp [hx]), by unfold MaxInt64; exact hmax, hlmax⟩
          rw [bytesOf_cons] at hrem
          simp only
          omega
        · simp only [List.length_cons]
          push_cast
          omega
    · -- the part reader has bytes left
      obtain ⟨hk1, hk2, hleft, herr⟩ := hd.read_some rd len (by omega) (by omega)
      have hbo : 0 ≤ bytesOf post := by omega
      have hw : wrap64 (remaining - ((env.Read rd len).1.1 : Int)) =
          remaining - ((env.Read rd len).1.1 : Int) := by
        apply wrap64_of_int64
        unfold IsInt64 MinInt64 MaxInt64
        omega
      rw [hw]
      rcases herr with he | ⟨he, hfull⟩
      · rw [he, if_neg (by simp)]
        refine ⟨_, rfl, by simp, Or.inr ⟨rfl, post, ?_, ?_⟩⟩
        · refine ⟨pre, cur, (env.Read rd len).2, rfl, rfl, rfl, ?_, hgood,
            by unfold MaxInt64; simp only; omega, hlmax⟩
          simp only
          omega
        · simp only
          omega
      · rw [he]
        by_cases hmore : remaining - ((env.Read rd len).1.1 : Int) > 0
        · rw [if_pos ⟨rfl, hmore⟩]
          cases post with
          | nil =>
            simp only [bytesOf, List.map_nil, List.sum_nil] at hrem
            omega
          | cons nxt post2 =>
            obtain ⟨rd2, calls, hmove, hl2⟩ := moveToNextPart_good env left hd
              { file := file, parts := parts, ranges := pre ++ cur :: nxt :: post2,
                pos := (pre.length : Int), reader := some (env.Read rd len).2,
                remaining := remaining - ((env.Read rd len).1.1 : Int),
                encryptionKey := key, concurrency := conc }
              pre post2 cur nxt (env.Read rd len).2 rfl rfl rfl (hgood nxt (by simp)) hlmax
            rw [hmove]
            refine ⟨_, rfl, by simp, Or.inr ⟨rfl, post2, ?_, ?_⟩⟩
            · refine ⟨pre ++ [cur], nxt, rd2, by simp, by simp, rfl, ?_,
                fun x hx => hgood x (by simp [hx]), by unfold MaxInt64; simp only; omega, hlmax⟩
              rw [bytesOf_cons] at hrem
              simp only
              omega
            · simp only [List.length_cons]
              push_cast
              omega
        · rw [if_neg (fun h => hmore h.2)]
          refine ⟨_, rfl, by simp, Or.inl ⟨rfl, ?_⟩⟩
          simp only
          omega


theorem StreamInv_remaining_nonneg {ρ : Type} (left : ρ → Nat) (r : Reader ρ)
    (post : List PartRange) (hinv : StreamInv left r post) : 0 ≤ r.remaining := by
  obtain ⟨pre, cur, rd, _, _, _, hrem, hgood, _, _⟩ := hinv
  have := bytesOf_ge_length _ post hgood
  omega

theorem readUntilError_total {ρ : Type} (env : Env ρ) (left : ρ → Nat)
    (hd : Delivers env left) (bufs : Nat → Nat) (hb : ∀ i, 1 ≤ bufs i) (n : Nat) :
    ∀ (r : Reader ρ) (post : List PartRange) (i total fuel : Nat),
      StreamInv left r post → r.remaining + post.length ≤ n → n + 1 ≤ fuel →
      ∃ r1, readUntilError env bufs fuel i r total =
          Outcome.ok (total + r.remaining.toNat, RErr.EOF, r1) ∧ r1.remaining ≤ 0 := by
  induction n with
  | zero =>
    intro r post i total fuel hinv hm hf
    obtain ⟨f, rfl⟩ : ∃ f, fuel = f + 1 := ⟨fuel - 1, by omega⟩
    have h0 := StreamInv_remaining_nonneg left r post hinv
    obtain ⟨s, hs, hsum, hcase⟩ := Read_step env left hd r post (bufs i) (hb i) hinv
    rcases hcase with ⟨he, hz⟩ | ⟨_, post2, hinv2, hlt⟩
    · refine ⟨s.st, ?_, by omega⟩
      rw [readUntilError, hs]
      simp only [he]
      congr 2
      omega
    · have := StreamInv_remaining_nonneg left s.st post2 hinv2
      omega
  | succ n ih =>
    intro r post i total fuel hinv hm hf
    obtain ⟨f, rfl⟩ : ∃ f, fuel = f + 1 := ⟨fuel - 1, by omega⟩
    have h0 := StreamInv_remaining_nonneg left r post hinv
    obtain ⟨s, hs, hsum, hcase⟩ := Read_step env left hd r post (bufs i) (hb i) hinv
    rcases hcase with ⟨he, hz⟩ | ⟨he, post2, hinv2, hlt⟩
    · refine ⟨s.st, ?_, by omega⟩
      rw [readUntilError, hs]
      simp only [he]
      congr 2
      omega
    · have h2 := StreamInv_remaining_nonneg left s.st post2 hinv2
      obtain ⟨r1, hr1, hz⟩ := ih s.st post2 (i + 1) (total + s.val.1) f hinv2
        (by omega) (by omega)
      refine ⟨r1, ?_, hz⟩
      rw [readUntilError, hs]
      simp only [he]
      rw [hr1]
      congr 2
      omega

theorem readUntilError_mono {ρ : Type} (env : Env ρ) (bufs : Nat → Nat) (fuel : Nat) :
    ∀ (i : Nat) (r : Reader ρ) (total : Nat) (x : Nat × RErr × Reader ρ),
      readUntilError env bufs fuel i r total = Outcome.ok x →
      ∀ k, readUntilError env bufs (fuel + k) i r total = Outcome.ok x := by
  induction fuel with
  | zero =>
    intro i r total x h
    simp [readUntilError] at h
  | succ f ih =>
    intro i r total x h k
    have hk : f + 1 + k = (f + k) + 1 := by omega
    rw [hk, readUntilError]
    rw [readUntilError] at h
    cases hread : Reader.Read env r (bufs i) with
    | fault => rw [hread] at h; simp at h
    | timeout => rw [hread] at h; simp at h
    | ok s =>
      rw [hread] at h
      simp only at h ⊢
      cases he : s.val.2 with
      | some e => rw [he] at h; simp only at h ⊢; exact h
      | none =>
        rw [he] at h
        simp only at h ⊢
        exact ih _ _ _ _ h k

/-- Everywhere but on the range `[0, MaxInt64]`, whose length `end - start + 1`
is not an `int64`: for a stream built by `NewReader` over `[start, end]` with
first-part size `S ≥ 1`, a parts list holding every part index up to `end / S`
and part readers that deliver exactly their partition, `NewReader` succeeds,
the byte counts of the successive `Read` calls on non-empty destinations up
to and including the first end-of-stream sum to `end - start + 1`, and every
`Read` after that returns `0` bytes with end-of-stream. -/
theorem Reader_delivers_all {ρ : Type} (env : Env ρ) (left : ρ → Nat)
    (hd : Delivers env left) (file : File) (p0 : Part) (ps : List Part) (start endv : Int)
    (key : String) (S : Int) (hSdef : S = if file.Encrypted then p0.DecryptedSize else p0.Size)
    (hS : 1 ≤ S) (hS64 : S ≤ MaxInt64) (h0 : 0 ≤ start) (hse : start ≤ endv)
    (hend : endv ≤ MaxInt64) (hfit : endv - start + 1 ≤ MaxInt64)
    (hparts : endv / S < (p0 :: ps).length) (hpl : ((p0 :: ps).length : Int) ≤ MaxInt64)
    (bufs : Nat → Nat) (hb : ∀ i, 1 ≤ bufs i) :
    ∃ (r0 r1 : Reader ρ) (calls : List (Call ρ)) (N : Nat),
      (∀ fuel, N ≤ fuel →
        NewReader env fuel file (p0 :: ps) start endv key = Outcome.ok (some r0, none, calls)) ∧
      (∀ fuel, N ≤ fuel →
        readUntilError env bufs fuel 0 r0 0 =
          Outcome.ok ((endv - start + 1).toNat, RErr.EOF, r1)) ∧
      ∀ len, Reader.Read env r1 len =
        Outcome.ok { val := (0, some RErr.EOF), st := r1, calls := [] } := by
  have hdiv := ediv_mono start endv S hse hS
  have hsp0 : 0 ≤ start / S := Int.ediv_nonneg h0 (by omega)
  have hno : endv / S < MaxInt64 := by omega
  have hgood := expectedRanges_good start endv S hS h0 hse
  have hsum := bytesOf_expectedRanges start endv S hS hse
  have hlenr : ((expectedRanges start endv S).length : Int) = endv / S - start / S + 1 := by
    simp only [expectedRanges, List.length_map, List.length_range]
    exact Int.toNat_of_nonneg (by omega)
  obtain ⟨cur, post, hcp⟩ : ∃ cur post, expectedRanges start endv S = cur :: post := by
    cases h : expectedRanges start endv S with
    | nil => exact absurd h (expectedRanges_ne_nil start endv S hS hse)
    | cons a t => exact ⟨a, t, rfl⟩
  have hgood2 : ∀ x ∈ cur :: post, GoodEntry (p0 :: ps).length x := by
    intro x hx
    rw [← hcp] at hx
    obtain ⟨g1, g2, g3, g4, g5⟩ := hgood x hx
    exact ⟨g1, g2, by omega, g4, by omega⟩
  have hwrem : wrap64 (wrap64 (endv - start) + 1) = endv - start + 1 := by
    unfold MaxInt64 at hfit hend
    rw [wrap64_of_int64 (endv - start) (by unfold IsInt64 MinInt64 MaxInt64; omega)]
    exact wrap64_of_int64 _ (by unfold IsInt64 MinInt64 MaxInt64; omega)
  obtain ⟨rd, calls, hinit, hl⟩ := initializeReader_good env left hd
    { file := file, parts := p0 :: ps, ranges := cur :: post, pos := 0, reader := none,
      remaining := endv - start + 1, encryptionKey := key, concurrency := 0 }
    [] post cur rfl rfl (hgood2 cur (by simp))
  have hinv : StreamInv left
      { file := file, parts := p0 :: ps, ranges := cur :: post, pos := 0, reader := some rd,
        remaining := endv - start + 1, encryptionKey := key, concurrency := 0 } post := by
    refine ⟨[], cur, rd, rfl, rfl, rfl, ?_, fun x hx => hgood2 x (by simp [hx]), hfit, ?_⟩
    · rw [hcp, bytesOf_cons] at hsum
      simp only
      omega
    · simp only
      rw [← hcp, hlenr]
      omega
  have hpostlen : ((post.length : Int)) ≤ endv / S := by
    have : ((cur :: post).length : Int) = endv / S - start / S + 1 := by rw [← hcp]; exact hlenr
    simp only [List.length_cons] at this
    push_cast at this
    omega
  obtain ⟨r1, hrun, hz⟩ := readUntilError_total env left hd bufs hb
    ((endv - start + 1).toNat + post.length) _ post 0 0
    ((endv - start + 1).toNat + post.length + 1) hinv
    (by simp only; omega) (le_refl _)
  refine ⟨(⟨file, p0 :: ps, cur :: post, 0, some rd, endv - start + 1, key, 0⟩ : Reader ρ),
    r1, calls,
    max (endv / S - start / S + 2).toNat ((endv - start + 1).toNat + post.length + 1),
    ?_, ?_, fun len => Read_exhausted env r1 len hz⟩
  · intro fuel hf
    unfold NewReader
    simp only [← hSdef]
    rw [calculatePartByteRanges_eq start endv S hS hS64 h0 hse hend hno fuel
      (le_trans (le_max_left _ _) hf)]
    simp only [hcp, hwrem, hinit]
    simp
  · intro fuel hf
    obtain ⟨k, rfl⟩ : ∃ k, fuel = (endv - start + 1).toNat + post.length + 1 + k :=
      ⟨fuel - ((endv - start + 1).toNat + post.length + 1),
        by have := le_trans (le_max_right _ _) hf; omega⟩
    have := readUntilError_mono env bufs _ _ _ _ _ hrun k
    simpa using this


theorem idealEnv_delivers : Delivers idealEnv (fun n => n) := by
  refine ⟨?_, ?_, ?_, ?_⟩
  · intro s e src hs hse
    refine ⟨(e - s + 1).toNat, rfl, ?_⟩
    show (((e - s + 1).toNat : Nat) : Int) = e - s + 1
    omega
  · intro key salt cb off lim hoff hlim
    refine ⟨lim.toNat, rfl, ?_⟩
    show ((lim.toNat : Nat) : Int) = lim
    omega
  · intro rd len h
    have h' : rd = 0 := h
    subst h'
    simp [idealEnv]
  · intro rd len hlen hleft
    have hleft' : 0 < rd := hleft
    show 1 ≤ min len rd ∧ min len rd ≤ rd ∧ rd - min len rd = rd - min len rd ∧
      ((if rd ≤ len then some RErr.EOF else none) = none ∨
        ((if rd ≤ len then some RErr.EOF else none) = some RErr.EOF ∧ min len rd = rd))
    refine ⟨by omega, by omega, rfl, ?_⟩
    by_cases h : rd ≤ len
    · right
      rw [if_pos h]
      exact ⟨rfl, by omega⟩
    · left
      rw [if_neg h]

theorem Reader_delivers_all_witness :
    ∃ (r0 r1 : Reader Nat) (calls : List (Call Nat)) (N : Nat),
      (∀ fuel, N ≤ fuel →
        NewReader idealEnv fuel { ID := "f", Encrypted := false, ChannelId := 7 }
          [{ ID := 1, Size := 10, DecryptedSize := 10, Salt := "" },
           { ID := 2, Size := 10, DecryptedSize := 10, Salt := "" },
           { ID := 3, Size := 10, DecryptedSize := 10, Salt := "" }] 5 25 ""
          = Outcome.ok (some r0, none, calls)) ∧
      (∀ fuel, N ≤ fuel →
        readUntilError idealEnv (fun _ => 4) fuel 0 r0 0 =
          Outcome.ok (((25 : Int) - 5 + 1).toNat, RErr.EOF, r1)) ∧
      ∀ len, Reader.Read idealEnv r1 len =
        Outcome.ok { val := (0, some RErr.EOF), st := r1, calls := [] } :=
  Reader_delivers_all idealEnv (fun n => n) idealEnv_delivers
    { ID := "f", Encrypted := false, ChannelId := 7 }
    { ID := 1, Size := 10, DecryptedSize := 10, Salt := "" }
    [{ ID := 2, Size := 10, DecryptedSize := 10, Salt := "" },
     { ID := 3, Size := 10, DecryptedSize := 10, Salt := "" }] 5 25 "" 10 rfl
    (by decide) (by decide) (by decide) (by decide) (by decide) (by decide) (by decide)
    (by decide) (fun _ => 4) (fun _ => le_of_lt (by decide : 1 < 4))

/-- C3, at the failing input: over the range `[0, MaxInt64]` of a file of two
parts of `2^62` bytes, with part readers that deliver their partitions in
full, `remaining = end - start + 1` wraps to `MinInt64`; `NewReader` succeeds
and the first `Read` already returns `0` bytes and end-of-stream, so the byte
counts sum to `0` and not to `end - start + 1 = 2^63`. -/
theorem Reader_full_range_reads_nothing :
    ∃ (r0 : Reader Nat) (calls : List (Call Nat)),
      NewReader idealEnv 3 { ID := "f", Encrypted := false, ChannelId := 7 }
          [{ ID := 1, Size := 4611686018427387904, DecryptedSize := 4611686018427387904,
             Salt := "" },
           { ID := 2, Size := 4611686018427387904, DecryptedSize := 4611686018427387904,
             Salt := "" }] 0 MaxInt64 ""
        = Outcome.ok (some r0, none, calls) ∧
      r0.remaining = MinInt64 ∧
      (∀ (bufs : Nat → Nat) (fuel : Nat),
        readUntilError idealEnv bufs (fuel + 1) 0 r0 0 = Outcome.ok (0, RErr.EOF, r0)) ∧
      MaxInt64 / 4611686018427387904 < 2 ∧
      (MaxInt64 - 0 + 1).toNat = 9223372036854775808 := by
  refine ⟨{ file := { ID := "f", Encrypted := false, ChannelId := 7 },
            parts := [{ ID := 1, Size := 4611686018427387904,
                        DecryptedSize := 4611686018427387904, Salt := "" },
                      { ID := 2, Size := 4611686018427387904,
                        DecryptedSize := 4611686018427387904, Salt := "" }],
            ranges := [{ Start := 0, End := 4611686018427387903, PartNo := 0 },
                       { Start := 0, End := 4611686018427387903, PartNo := 1 }],
            pos := 0, reader := some 4611686018427387904, remaining := MinInt64,
            encryptionKey := "", concurrency := 0 }, _, by rfl, rfl, ?_, by decide, by decide⟩
  intro bufs fuel
  rw [readUntilError, Read_exhausted _ _ _ (by decide)]
  rfl


/-! ## Errors of the external layers -/

theorem getPartReader_open {ρ : Type} (env : Env ρ) (r : Reader ρ) (cur : PartRange)
    (part : Part) (hcur : currentRange r = some cur) (hp0 : 0 ≤ cur.PartNo)
    (hpart : r.parts.get? cur.PartNo.toNat = some part) :
    getPartReader env r =
      if r.file.Encrypted then
        Outcome.ok (env.DecryptDataSeek r.encryptionKey part.Salt
            (decryptCallback env r (chunkSourceOf r part)) cur.Start
            (wrap64 (wrap64 (cur.End - cur.Start) + 1)),
          [Call.newTGMultiReader cur.Start cur.End (chunkSourceOf r part),
           Call.DecryptDataSeek r.encryptionKey part.Salt cur.Start
             (wrap64 (wrap64 (cur.End - cur.Start) + 1))])
      else
        Outcome.ok (env.newTGMultiReader cur.Start cur.End (chunkSourceOf r part),
          [Call.newTGMultiReader cur.Start cur.End (chunkSourceOf r part)]) := by
  unfold currentRange at hcur
  by_cases h0 : 0 ≤ r.pos
  · rw [if_pos h0] at hcur
    have hlt : r.pos.toNat < r.ranges.length := by
      by_contra hc
      rw [List.get?_eq_none.mpr (by omega)] at hcur
      exact absurd hcur (by simp)
    have hplt : cur.PartNo.toNat < r.parts.length := by
      by_contra hc
      rw [List.get?_eq_none.mpr (by omega)] at hpart
      exact absurd hpart (by simp)
    unfold getPartReader
    rw [if_neg (by omega), if_neg (by omega)]
    simp only [hcur]
    rw [if_neg (by omega)]
    simp only [hpart]
    by_cases henc : r.file.Encrypted = true
    · rw [if_pos henc, if_pos henc, if_neg (by omega)]
      rfl
    · rw [if_neg henc, if_neg henc]
      rfl
  · rw [if_neg h0] at hcur
    exact absurd hcur (by simp)


theorem currentRange_some {ρ : Type} (r : Reader ρ) (cur : PartRange)
    (hcur : currentRange r = some cur) :
    0 ≤ r.pos ∧ r.pos < r.ranges.length ∧ r.ranges.get? r.pos.toNat = some cur := by
  unfold currentRange at hcur
  by_cases h0 : 0 ≤ r.pos
  · rw [if_pos h0] at hcur
    have hlt : r.pos.toNat < r.ranges.length := by
      by_contra hc
      rw [List.get?_eq_none.mpr (by omega)] at hcur
      exact absurd hcur (by simp)
    exact ⟨h0, by omega, hcur⟩
  · rw [if_neg h0] at hcur
    exact absurd hcur (by simp)

theorem parts_get {ρ : Type} (r : Reader ρ) (p : Int) (h0 : 0 ≤ p)
    (h1 : p < r.parts.length) : ∃ part, r.parts.get? p.toNat = some part :=
  ⟨r.parts.get ⟨p.toNat, by omega⟩, List.get?_eq_get (by omega)⟩

/-- C20: bounds are validated before any fetch. If the cursor is not below the
length of the partition list, or the partition under the cursor has a part
number that is negative or not below the length of the parts list,
`getPartReader` returns no reader and an out-of-range error and makes no
external call; otherwise its first external call is the chunk fetch for
exactly `[Start, End]` of the partition, on the chunk source of the part
`parts[PartNo]` (whose `ID` is the source's `partId`), followed only, for an
encrypted file, by the call of the decrypt layer. -/
theorem getPartReader_validates_bounds {ρ : Type} (env : Env ρ) (r : Reader ρ) :
    (r.pos ≥ r.ranges.length →
      getPartReader env r = Outcome.ok
        ((none, some (RErr.positionOutOfRange r.pos (r.ranges.length - 1))), [])) ∧
    (∀ cur, currentRange r = some cur →
      (cur.PartNo < 0 ∨ cur.PartNo ≥ r.parts.length) →
      getPartReader env r = Outcome.ok
        ((none, some (RErr.partOutOfRange cur.PartNo r.parts.length)), [])) ∧
    (∀ cur, currentRange r = some cur → 0 ≤ cur.PartNo → cur.PartNo < r.parts.length →
      ∃ part res, r.parts.get? cur.PartNo.toNat = some part ∧
        (chunkSourceOf r part).partId = part.ID ∧
        getPartReader env r = Outcome.ok (res,
          Call.newTGMultiReader cur.Start cur.End (chunkSourceOf r part) ::
            (if r.file.Encrypted then
              [Call.DecryptDataSeek r.encryptionKey part.Salt cur.Start
                (wrap64 (wrap64 (cur.End - cur.Start) + 1))]
             else []))) := by
  refine ⟨?_, ?_, ?_⟩
  · intro h
    unfold getPartReader
    rw [if_pos h]
  · intro cur hcur hbad
    obtain ⟨h0, hlt, hget⟩ := currentRange_some r cur hcur
    unfold getPartReader
    rw [if_neg (by omega), if_neg (by omega)]
    simp only [hget]
    rw [if_pos hbad]
  · intro cur hcur hp0 hp1
    obtain ⟨part, hpart⟩ := parts_get r cur.PartNo hp0 hp1
    rw [getPartReader_open env r cur part hcur hp0 hpart]
    by_cases henc : r.file.Encrypted = true
    · rw [if_pos henc]
      refine ⟨part, env.DecryptDataSeek r.encryptionKey part.Salt
        (decryptCallback env r (chunkSourceOf r part)) cur.Start
        (wrap64 (wrap64 (cur.End - cur.Start) + 1)), hpart, rfl, ?_⟩
      rw [if_pos henc]
    · rw [if_neg henc]
      refine ⟨part, env.newTGMultiReader cur.Start cur.End (chunkSourceOf r part),
        hpart, rfl, ?_⟩
      rw [if_neg henc]

theorem getPartReader_negative_pos {ρ : Type} (env : Env ρ) (r : Reader ρ)
    (h : r.pos < 0) : getPartReader env r = Outcome.fault := by
  unfold getPartReader
  rw [if_neg (by omega), if_pos h]

/-- For an unencrypted file the error of the chunk fetch is the error
`getPartReader` returns. -/
theorem getPartReader_fetch_error {ρ : Type} (env : Env ρ) (r : Reader ρ) (cur : PartRange)
    (part : Part) (e : RErr) (hcur : currentRange r = some cur) (hp0 : 0 ≤ cur.PartNo)
    (hpart : r.parts.get? cur.PartNo.toNat = some part) (henc : r.file.Encrypted = false)
    (hfail : (env.newTGMultiReader cur.Start cur.End (chunkSourceOf r part)).2 = some e) :
    ∃ rd calls, getPartReader env r = Outcome.ok ((rd, some e), calls) := by
  rw [getPartReader_open env r cur part hcur hp0 hpart, if_neg (by simp [henc])]
  refine ⟨(env.newTGMultiReader cur.Start cur.End (chunkSourceOf r part)).1,
    [Call.newTGMultiReader cur.Start cur.End (chunkSourceOf r part)], ?_⟩
  rw [← hfail]

/-- For an encrypted file the error of the decrypt layer is the error
`getPartReader` returns. -/
theorem getPartReader_decrypt_error {ρ : Type} (env : Env ρ) (r : Reader ρ)
    (cur : PartRange) (part : Part) (e : RErr) (hcur : currentRange r = some cur)
    (hp0 : 0 ≤ cur.PartNo) (hpart : r.parts.get? cur.PartNo.toNat = some part)
    (henc : r.file.Encrypted = true)
    (hfail : (env.DecryptDataSeek r.encryptionKey part.Salt
      (decryptCallback env r (chunkSourceOf r part)) cur.Start
      (wrap64 (wrap64 (cur.End - cur.Start) + 1))).2 = some e) :
    ∃ rd calls, getPartReader env r = Outcome.ok ((rd, some e), calls) := by
  rw [getPartReader_open env r cur part hcur hp0 hpart, if_pos henc]
  refine ⟨(env.DecryptDataSeek r.encryptionKey part.Salt
      (decryptCallback env r (chunkSourceOf r part)) cur.Start
      (wrap64 (wrap64 (cur.End - cur.Start) + 1))).1,
    [Call.newTGMultiReader cur.Start cur.End (chunkSourceOf r part),
     Call.DecryptDataSeek r.encryptionKey part.Salt cur.Start
       (wrap64 (wrap64 (cur.End - cur.Start) + 1))], ?_⟩
  rw [← hfail]

/-- An error of `getPartReader` is what `initializeReader` returns, and the
stream is left as it was. -/
theorem initializeReader_error {ρ : Type} (env : Env ρ) (r : Reader ρ) (rd : Option ρ)
    (e : RErr) (calls : List (Call ρ))
    (h : getPartReader env r = Outcome.ok ((rd, some e), calls)) :
    initializeReader env r = Outcome.ok { val := some e, st := r, calls := calls } := by
  unfold initializeReader
  rw [h]
  simp

/-- C11, at the failing input: for an encrypted file whose chunk fetch for the
partition `[0, 9]` fails with error `7` while the decrypt layer opens a
reader, `getPartReader` returns that reader and no error, and `NewReader`
returns a stream: line 167 overwrites the `err` of line 157 unread. -/
theorem getPartReader_drops_fetch_error :
    (failingFetchEnv.newTGMultiReader 0 9
      { channelId := 7, partId := 1, concurrency := 0,
        key := ("files", "location", "f", 1) }).2 = some (RErr.upstream 7) ∧
    getPartReader failingFetchEnv
      { file := { ID := "f", Encrypted := true, ChannelId := 7 },
        parts := [{ ID := 1, Size := 26, DecryptedSize := 10, Salt := "s" }],
        ranges := [{ Start := 0, End := 9, PartNo := 0 }], pos := 0, reader := none,
        remaining := 10, encryptionKey := "k", concurrency := 0 } =
      Outcome.ok ((some 10, none),
        [Call.newTGMultiReader 0 9 ⟨7, 1, 0, ("files", "location", "f", 1)⟩,
         Call.DecryptDataSeek "k" "s" 0 10]) ∧
    NewReader failingFetchEnv 3 { ID := "f", Encrypted := true, ChannelId := 7 }
        [{ ID := 1, Size := 26, DecryptedSize := 10, Salt := "s" }] 0 9 "k" =
      Outcome.ok (some
        { file := { ID := "f", Encrypted := true, ChannelId := 7 },
          parts := [{ ID := 1, Size := 26, DecryptedSize := 10, Salt := "s" }],
          ranges := [{ Start := 0, End := 9, PartNo := 0 }], pos := 0, reader := some 10,
          remaining := 10, encryptionKey := "k", concurrency := 0 }, none,
        [Call.newTGMultiReader 0 9 ⟨7, 1, 0, ("files", "location", "f", 1)⟩,
         Call.DecryptDataSeek "k" "s" 0 10]) := by
  refine ⟨rfl, ?_, ?_⟩ <;> rfl

/-! ## Closing a stream -/

theorem Close_cleared {ρ : Type} (env : Env ρ) (r : Reader ρ) (h : r.reader = none) :
    Reader.Close env r = { val := none, st := r, calls := [] } := by
  unfold Reader.Close
  rw [h]

theorem closeTimes_cleared {ρ : Type} (env : Env ρ) (n : Nat) (r : Reader ρ)
    (h : r.reader = none) : closeTimes env n r = (r, []) := by
  induction n with
  | zero => rfl
  | succ n ih =>
    unfold closeTimes
    simp only [Close_cleared env r h, ih, List.nil_append]

/-- C12: `Close` is idempotent. On a stream with an open part reader `Close`
closes that reader, returns its close result and clears the reader reference;
on a stream whose reader reference is cleared it returns no error, makes no
external call and leaves every field unchanged; so a second `Close` is such a
no-op, and any number of successive `Close` calls closes the part reader at
most once. -/
theorem Close_idempotent {ρ : Type} (env : Env ρ) (r : Reader ρ) :
    (∀ rd, r.reader = some rd →
      Reader.Close env r =
        { val := env.Close rd, st := { r with reader := none }, calls := [Call.Close rd] }) ∧
    (r.reader = none → Reader.Close env r = { val := none, st := r, calls := [] }) ∧
    Reader.Close env (Reader.Close env r).st =
      { val := none, st := (Reader.Close env r).st, calls := [] } ∧
    (∀ n, (closeTimes env n r).2.length ≤ 1 ∧ (closeTimes env (n + 1) r).1.reader = none ∧
      ∀ c ∈ (closeTimes env n r).2, ∃ rd, r.reader = some rd ∧ c = Call.Close rd) := by
  have hst : (Reader.Close env r).st.reader = none := by
    cases hr : r.reader with
    | none => rw [Close_cleared env r hr]; exact hr
    | some rd =>
      unfold Reader.Close
      rw [hr]
  refine ⟨?_, Close_cleared env r, Close_cleared env _ hst, ?_⟩
  · intro rd h
    unfold Reader.Close
    rw [h]
  · intro n
    cases hr : r.reader with
    | none =>
      rw [closeTimes_cleared env n r hr, closeTimes_cleared env (n + 1) r hr]
      simp [hr]
    | some rd =>
      have hc : Reader.Close env r =
          { val := env.Close rd, st := { r with reader := none }, calls := [Call.Close rd] } := by
        unfold Reader.Close
        rw [hr]
      refine ⟨?_, ?_, ?_⟩
      · cases n with
        | zero => simp [closeTimes]
        | succ m =>
          unfold closeTimes
          simp only [hc, closeTimes_cleared env m { r with reader := none } rfl]
          simp
      · unfold closeTimes
        simp only [hc, closeTimes_cleared env n { r with reader := none } rfl]
      · cases n with
        | zero => simp [closeTimes]
        | succ m =>
          unfold closeTimes
          simp only [hc, closeTimes_cleared env m { r with reader := none } rfl]
          simp

/-! ## The part boundary and the end of the stream -/

/-- C18: the part-boundary step of `Read`. In a state with `remaining > 0`
whose part reader returns `n` bytes together with end-of-stream while
`remaining - n > 0`, `Read` calls that reader and closes it, advances `pos` by
exactly 1 and decrements `remaining` by exactly `n`; if `pos + 1` is past the
last partition it returns `(n, EOF)`; if `pos + 1` is inside the partition
list and `getPartReader` opens the next part without error it returns
`(n, nil)` with that reader as the active one; if the opening fails with
error `e` it returns `(n, e)`. The cursor is an `int` below the largest one. -/
theorem Read_part_boundary {ρ : Type} (env : Env ρ) (r : Reader ρ) (len n : Nat)
    (rd rd1 : ρ) (hrem : 0 < r.remaining) (hint : r.remaining ≤ MaxInt64)
    (hrd : r.reader = some rd) (hread : env.Read rd len = ((n, some RErr.EOF), rd1))
    (hmore : r.remaining - n > 0) (hpos : IsInt64 r.pos) (hmax : r.pos < MaxInt64) :
    (r.pos + 1 ≥ r.ranges.length →
      Reader.Read env r len = Outcome.ok
        { val := (n, some RErr.EOF),
          st := { r with pos := r.pos + 1, reader := some rd1,
                         remaining := r.remaining - n },
          calls := [Call.Read rd len, Call.Close rd1] }) ∧
    (r.pos + 1 < r.ranges.length →
      ∀ (res : Option ρ × Option RErr) (calls : List (Call ρ)),
        getPartReader env { r with pos := r.pos + 1, reader := some rd1,
                                   remaining := r.remaining - n } = Outcome.ok (res, calls) →
        (res.2 = none →
          Reader.Read env r len = Outcome.ok
            { val := (n, none),
              st := { r with pos := r.pos + 1, reader := res.1,
                             remaining := r.remaining - n },
              calls := Call.Read rd len :: Call.Close rd1 :: calls }) ∧
        (∀ e, res.2 = some e →
          Reader.Read env r len = Outcome.ok
            { val := (n, some e),
              st := { r with pos := r.pos + 1, reader := some rd1,
                             remaining := r.remaining - n },
              calls := Call.Read rd len :: Call.Close rd1 :: calls })) := by
  obtain ⟨file, parts, ranges, pos, reader, remaining, key, conc⟩ := r
  simp only at hrem hint hrd hmore hpos hmax
  subst hrd
  unfold IsInt64 MinInt64 MaxInt64 at hpos
  unfold MaxInt64 at hint hmax
  have hw : wrap64 (remaining - (n : Int)) = remaining - (n : Int) := by
    apply wrap64_of_int64
    unfold IsInt64 MinInt64 MaxInt64
    omega
  have hwp : wrap64 (pos + 1) = pos + 1 := by
    apply wrap64_of_int64
    unfold IsInt64 MinInt64 MaxInt64
    omega
  have hn : (env.Read rd len).1.1 = n := by rw [hread]
  have he : (env.Read rd len).1.2 = some RErr.EOF := by rw [hread]
  have hs : (env.Read rd len).2 = rd1 := by rw [hread]
  constructor
  · intro hpast
    dsimp only at hpast
    unfold Reader.Read
    dsimp only
    rw [if_neg (by omega), hn, he, hs, hw, if_pos ⟨rfl, hmore⟩]
    unfold moveToNextPart
    dsimp only
    rw [hwp, if_neg (by omega)]
    simp
  · intro hin res calls hget
    dsimp only at hin hget
    have hmove : ∀ (v : Option RErr) (st : Reader ρ),
        initializeReader env
          { file := file, parts := parts, ranges := ranges, pos := pos + 1,
            reader := some rd1, remaining := remaining - (n : Int), encryptionKey := key,
            concurrency := conc } = Outcome.ok { val := v, st := st, calls := calls } →
        Reader.Read env
          { file := file, parts := parts, ranges := ranges, pos := pos,
            reader := some rd, remaining := remaining, encryptionKey := key,
            concurrency := conc } len =
          Outcome.ok { val := (n, v), st := st,
                       calls := Call.Read rd len :: Call.Close rd1 :: calls } := by
      intro v st hinit
      unfold Reader.Read
      dsimp only
      rw [if_neg (by omega), hn, he, hs, hw, if_pos ⟨rfl, hmore⟩]
      unfold moveToNextPart
      dsimp only
      rw [hwp, if_pos hin, hinit]
      cases v <;> simp
    constructor
    · intro hok
      apply hmove
      unfold initializeReader
      rw [hget]
      simp [hok]
    · intro e herr
      apply hmove
      unfold initializeReader
      rw [hget]
      simp [herr]

theorem Read_part_boundary_witness :
    Reader.Read idealEnv
      { file := { ID := "f", Encrypted := false, ChannelId := 7 },
        parts := [{ ID := 1, Size := 10, DecryptedSize := 10, Salt := "" },
                  { ID := 2, Size := 10, DecryptedSize := 10, Salt := "" }],
        ranges := [{ Start := 5, End := 9, PartNo := 0 }, { Start := 0, End := 4, PartNo := 1 }],
        pos := 0, reader := some 5, remaining := 10, encryptionKey := "", concurrency := 0 }
      8 = Outcome.ok
        { val := (5, none),
          st := { file := { ID := "f", Encrypted := false, ChannelId := 7 },
                  parts := [{ ID := 1, Size := 10, DecryptedSize := 10, Salt := "" },
                            { ID := 2, Size := 10, DecryptedSize := 10, Salt := "" }],
                  ranges := [{ Start := 5, End := 9, PartNo := 0 },
                             { Start := 0, End := 4, PartNo := 1 }],
                  pos := 1, reader := some 5, remaining := 5, encryptionKey := "",
                  concurrency := 0 },
          calls := [Call.Read 5 8, Call.Close 0,
            Call.newTGMultiReader 0 4 ⟨7, 2, 0, ("files", "location", "f", 2)⟩] } :=
  ((Read_part_boundary idealEnv
      { file := { ID := "f", Encrypted := false, ChannelId := 7 },
        parts := [{ ID := 1, Size := 10, DecryptedSize := 10, Salt := "" },
                  { ID := 2, Size := 10, DecryptedSize := 10, Salt := "" }],
        ranges := [{ Start := 5, End := 9, PartNo := 0 }, { Start := 0, End := 4, PartNo := 1 }],
        pos := 0, reader := some 5, remaining := 10, encryptionKey := "", concurrency := 0 }
      8 5 5 0 (by decide) (by decide) rfl rfl (by decide) (by decide) (by decide)).2
    (by decide) (some 5, none)
    [Call.newTGMultiReader 0 4 ⟨7, 2, 0, ("files", "location", "f", 2)⟩] rfl).1 rfl

/-- C13, at the failing input: a stream over `[0, 9]` of one part whose reader
holds only 5 bytes. The first `Read` returns `(5, EOF)` with the cursor moved
past the last partition and `remaining = 5`; the next `Read` calls the part
reader closed in that move again and returns what it returns, here
`(0, error 1)` and not `(0, EOF)`. -/
theorem Read_after_list_exhausted :
    ∃ (r0 r1 : Reader (Option Nat)) (calls0 calls1 : List (Call (Option Nat))),
      NewReader shortEnv 3 { ID := "f", Encrypted := false, ChannelId := 7 }
        [{ ID := 1, Size := 10, DecryptedSize := 10, Salt := "" }] 0 9 "" =
        Outcome.ok (some r0, none, calls0) ∧
      Reader.Read shortEnv r0 8 =
        Outcome.ok { val := (5, some RErr.EOF), st := r1, calls := calls1 } ∧
      r1.pos = 1 ∧ r1.ranges.length = 1 ∧ r1.remaining = 5 ∧
      Reader.Read shortEnv r1 8 =
        Outcome.ok { val := (0, some (RErr.upstream 1)), st := r1,
                     calls := [Call.Read none 8] } := by
  refine ⟨{ file := { ID := "f", Encrypted := false, ChannelId := 7 },
            parts := [{ ID := 1, Size := 10, DecryptedSize := 10, Salt := "" }],
            ranges := [{ Start := 0, End := 9, PartNo := 0 }], pos := 0,
            reader := some (some 5), remaining := 10, encryptionKey := "",
            concurrency := 0 },
          { file := { ID := "f", Encrypted := false, ChannelId := 7 },
            parts := [{ ID := 1, Size := 10, DecryptedSize := 10, Salt := "" }],
            ranges := [{ Start := 0, End := 9, PartNo := 0 }], pos := 1,
            reader := some none, remaining := 5, encryptionKey := "",
            concurrency := 0 },
          [Call.newTGMultiReader 0 9 ⟨7, 1, 0, ("files", "location", "f", 1)⟩],
          [Call.Read (some 5) 8, Call.Close none], ?_, ?_, rfl, rfl, rfl, ?_⟩ <;> rfl

/-- Once `remaining` is `0` or below, `Read` is terminal: it returns `(0, EOF)`
without any external call and leaves every field of the stream unchanged, and
so does every `Read` after it. -/
theorem Read_exhausted_terminal {ρ : Type} (env : Env ρ) (r : Reader ρ)
    (h : r.remaining ≤ 0) (lens : List Nat) :
    ∀ len ∈ lens, Reader.Read env r len =
      Outcome.ok { val := (0, some RErr.EOF), st := r, calls := [] } :=
  fun len _ => Read_exhausted env r len h

/-! ## The entries of a partition -/

theorem rangesLoop_wraps (start endv S : Int) (fuel : Nat) :
    ∀ (part : Int) (acc : List PartRange), part ≤ MaxInt64 →
      rangesLoop fuel start endv S MaxInt64 part acc = none := by
  induction fuel with
  | zero => intro part acc _; rfl
  | succ f ih =>
    intro part acc hp
    rw [rangesLoop, if_pos hp]
    exact ih _ _ (wrap64_isInt64 _).2

/-- Everywhere but where the loop counter would pass the largest `int64`
(`end / S = MaxInt64`): `calculatePartByteRanges(start, end, S)` returns, given
enough fuel, a list whose every entry lies inside one part,
`0 ≤ Start ≤ End ≤ S - 1`; every entry but the first has `Start = 0`, every
entry but the last has `End = S - 1`, and the lengths `End - Start + 1` sum to
`end - start + 1`. -/
theorem calculatePartByteRanges_entries (start endv S : Int) (hS : 1 ≤ S)
    (hS64 : S ≤ MaxInt64) (h0 : 0 ≤ start) (hse : start ≤ endv) (hend : endv ≤ MaxInt64)
    (hno : endv / S < MaxInt64) :
    ∃ rs : List PartRange,
      (∀ fuel, (endv / S - start / S + 2).toNat ≤ fuel →
        calculatePartByteRanges fuel start endv S = Outcome.ok rs) ∧
      (∀ x ∈ rs, 0 ≤ x.Start ∧ x.Start ≤ x.End ∧ x.End ≤ S - 1) ∧
      (∀ i x, rs.get? i = some x → 0 < i → x.Start = 0) ∧
      (∀ i x, rs.get? i = some x → i + 1 < rs.length → x.End = S - 1) ∧
      bytesOf rs = endv - start + 1 := by
  have hdiv := ediv_mono start endv S hse hS
  have hs := ediv_facts start S hS
  have he := ediv_facts endv S hS
  have hgetx : ∀ i x, (expectedRanges start endv S).get? i = some x →
      i < (endv / S - start / S + 1).toNat ∧
        x = partEntry start endv S (start / S + (i : Int)) := by
    intro i x hx
    have hi : i < (endv / S - start / S + 1).toNat := by
      by_contra hc
      rw [List.get?_eq_none.mpr (by
        simp only [expectedRanges, List.length_map, List.length_range]; omega)] at hx
      exact absurd hx (by simp)
    refine ⟨hi, ?_⟩
    simp [expectedRanges, List.getElem?_map, List.getElem?_range hi] at hx
    exact hx.symm
  refine ⟨expectedRanges start endv S,
    fun fuel hf => calculatePartByteRanges_eq start endv S hS hS64 h0 hse hend hno fuel hf,
    ?_, ?_, ?_, bytesOf_expectedRanges start endv S hS hse⟩
  · intro x hx
    obtain ⟨g1, g2, g3, _, _⟩ := expectedRanges_good start endv S hS h0 hse x hx
    exact ⟨g1, g2, g3⟩
  · intro i x hx hi
    obtain ⟨_, rfl⟩ := hgetx i x hx
    have m := mul_mono (start / S + 1) (start / S + (i : Int)) S (by omega) hS
    have e1 : (start / S + 1) * S = start / S * S + S := by ring
    rw [e1] at m
    simp only [partEntry]
    omega
  · intro i x hx hi
    obtain ⟨_, rfl⟩ := hgetx i x hx
    simp only [expectedRanges, List.length_map, List.length_range] at hi
    have m := mul_mono (start / S + (i : Int) + 1) (endv / S) S (by omega) hS
    have e1 : (start / S + (i : Int) + 1) * S = (start / S + (i : Int)) * S + S := by ring
    rw [e1] at m
    simp only [partEntry]
    omega

theorem calculatePartByteRanges_entries_witness :
    ∃ rs : List PartRange,
      (∀ fuel, ((25 : Int) / 10 - 5 / 10 + 2).toNat ≤ fuel →
        calculatePartByteRanges fuel 5 25 10 = Outcome.ok rs) ∧
      bytesOf rs = 25 - 5 + 1 :=
  have h := calculatePartByteRanges_entries 5 25 10 (by decide) (by decide) (by decide)
    (by decide) (by decide) (by decide)
  ⟨h.choose, h.choose_spec.1, h.choose_spec.2.2.2.2⟩

/-- C19, at the failing input: for `start = MaxInt64 - 1`, `end = MaxInt64` and
part size `1` the loop bound `endPart` is `MaxInt64`, the loop counter wraps
around, and `calculatePartByteRanges` returns no list, whatever the fuel:
there are no two entries `{0, 0}` whose lengths sum to `end - start + 1 = 2`. -/
theorem calculatePartByteRanges_no_entries :
    ∀ (fuel : Nat) (rs : List PartRange),
      calculatePartByteRanges fuel 9223372036854775806 MaxInt64 1 ≠ Outcome.ok rs := by
  intro fuel rs
  unfold calculatePartByteRanges
  rw [if_neg (by decide)]
  have hend : wrap64 (Int.tdiv MaxInt64 1) = MaxInt64 := by decide
  have hst : wrap64 (Int.tdiv 9223372036854775806 1) = 9223372036854775806 := by decide
  simp only [hend, hst]
  rw [rangesLoop_wraps _ _ _ fuel 9223372036854775806 [] (by decide)]
  simp

/-! ## The buffer pool -/

theorem isEmpty_reset (b : buffer) : buffer.isEmpty (some b.reset) = true := by
  have h : wrap64 (((b.reset.buf.length : Nat) : Int) - b.reset.offset) = 0 := by
    show wrap64 (((0 : Nat) : Int) - 0) = 0
    decide
  simp only [buffer.isEmpty, h]
  decide

theorem reset_fields (b : buffer) :
    b.reset.buf.length = 0 ∧ b.reset.offset = 0 ∧ b.reset.cap = b.cap :=
  ⟨rfl, rfl, rfl⟩

/-- C16: `putBuffer(b)` adds `b` to the pool exactly when a pool is installed,
`b` is not `nil` and the capacity of its backing array is at most 16 MiB, and
then `b` is reset (length 0, offset 0, capacity kept) before it is added; in
every other case the pool and the buffer are left as they were. So every
buffer the call leaves in the pool was there before or has a capacity of at
most 16 MiB. -/
theorem putBuffer_bounded (pool : Option Pool) (b : Option buffer) :
    (∀ p bb, pool = some p → b = some bb → bb.cap ≤ 16 * 1024 * 1024 →
      putBuffer pool b = (some { p with items := bb.reset :: p.items }, some bb.reset) ∧
      bb.reset.buf.length = 0 ∧ bb.reset.offset = 0 ∧ bb.reset.cap = bb.cap) ∧
    ((pool = none ∨ b = none ∨ ∃ bb, b = some bb ∧ 16 * 1024 * 1024 < bb.cap) →
      putBuffer pool b = (pool, b)) ∧
    (∀ p p2, pool = some p → (putBuffer pool b).1 = some p2 →
      ∀ x ∈ p2.items, x ∈ p.items ∨ x.cap ≤ 16 * 1024 * 1024) := by
  refine ⟨?_, ?_, ?_⟩
  · intro p bb hp hb hcap
    subst hp hb
    refine ⟨?_, rfl, rfl, rfl⟩
    simp only [putBuffer]
    rw [if_pos hcap]
    rfl
  · intro h
    cases pool with
    | none => cases b <;> rfl
    | some p =>
      cases b with
      | none => rfl
      | some bb =>
        rcases h with h | h | ⟨x, hx, hcap⟩
        · exact absurd h (by simp)
        · exact absurd h (by simp)
        · have : x = bb := by
            simp only [Option.some.injEq] at hx
            exact hx.symm
          subst this
          simp only [putBuffer]
          rw [if_neg (by omega)]
  · intro p p2 hp hres x hx
    subst hp
    cases b with
    | none =>
      have : p2 = p := by
        simp only [putBuffer, Option.some.injEq] at hres
        exact hres.symm
      subst this
      exact Or.inl hx
    | some bb =>
      by_cases hcap : bb.cap ≤ 16 * 1024 * 1024
      · simp only [putBuffer] at hres
        rw [if_pos hcap] at hres
        simp only [Option.some.injEq] at hres
        subst hres
        simp only [Pool.Put, List.mem_cons] at hx
        rcases hx with rfl | hx
        · exact Or.inr hcap
        · exact Or.inl hx
      · simp only [putBuffer] at hres
        rw [if_neg hcap] at hres
        simp only [Option.some.injEq] at hres
        subst hres
        exact Or.inl hx

/-- C17: `getBuffer` always returns a buffer with offset 0 and logical length
0, so that `isEmpty` holds for it, whatever buffer the pool hands out; with no
pool installed the returned buffer has a backing capacity of exactly 4 MiB;
`reset` sets length and offset to 0 and keeps the backing capacity. -/
theorem getBuffer_fresh (pool : Option Pool) (pick : Option Nat) :
    (getBuffer pool pick).1.offset = 0 ∧ (getBuffer pool pick).1.buf.length = 0 ∧
    buffer.isEmpty (some (getBuffer pool pick).1) = true ∧
    (pool = none → (getBuffer pool pick).1.cap = 4194304) ∧
    (∀ p, pool = some p → (getBuffer pool pick).1.cap = (p.Get pick).1.cap) ∧
    (∀ b : buffer, b.reset.buf.length = 0 ∧ b.reset.offset = 0 ∧ b.reset.cap = b.cap) := by
  cases pool with
  | none =>
    refine ⟨rfl, rfl, ?_, fun _ => rfl, ?_, reset_fields⟩
    · exact isEmpty_reset { buf := [], cap := 4 * 1024 * 1024, offset := 0 }
    · intro p hp
      exact absurd hp (by simp)
  | some p =>
    refine ⟨rfl, rfl, ?_, ?_, ?_, reset_fields⟩
    · exact isEmpty_reset (p.Get pick).1
    · intro h
      exact absurd h (by simp)
    · intro q hq
      simp only [Option.some.injEq] at hq
      subst hq
      rfl

/-! ## The event recorder -/

theorem Record_open (r : Recorder) (t : EventType) (u : Int) (s : Option String)
    (hopen : r.eventsClosed = false) :
    r.Record t u s =
      if r.events.length < 1000 then
        Outcome.ok { r with events := r.events ++ [{ Typ := t, UserID := u, Source := s }] }
      else
        Outcome.ok { r with logs := r.logs ++
          [{ level := "warn", msg := "event queue full, dropping event",
             fields := [LogField.String "type" t, LogField.Int64 "user_id" u] }] } := by
  unfold Recorder.Record
  simp only [hopen]
  rfl

theorem recordAll_bounded (calls : List (EventType × Int × Option String)) :
    ∀ r : Recorder, r.eventsClosed = false → r.events.length ≤ 1000 →
      ∃ r2, recordAll calls r = Outcome.ok r2 ∧ r2.events.length ≤ 1000 ∧
        r2.eventsClosed = false := by
  induction calls with
  | nil => intro r ho hl; exact ⟨r, rfl, hl, ho⟩
  | cons c rest ih =>
    intro r ho hl
    obtain ⟨t, u, s⟩ := c
    unfold recordAll
    rw [Record_open r t u s ho]
    by_cases hroom : r.events.length < 1000
    · rw [if_pos hroom]
      exact ih _ ho (by simp only [List.length_append, List.length_singleton]; omega)
    · rw [if_neg hroom]
      exact ih _ ho hl

/-- C14, as amended: on a recorder whose queue has not been closed by
`Shutdown` (the queue is then a list of at most 1000 events), `Record` always
returns; with fewer than 1000 events queued it appends exactly
the event `{Type: string(eventType), UserID: userID, Source: source}` at the
tail and leaves the earlier entries and the log as they are; with 1000 events
queued it leaves the queue unchanged and logs exactly one warning carrying the
event type and the user id; the five event types are the five literals; and
under any sequence of `Record` calls the queue never holds more than 1000
events. -/
theorem Record_bounded (r : Recorder) (t : EventType) (u : Int) (s : Option String)
    (hopen : r.eventsClosed = false) :
    (r.events.length < 1000 →
      r.Record t u s = Outcome.ok
        { r with events := r.events ++ [{ Typ := t, UserID := u, Source := s }] }) ∧
    (1000 ≤ r.events.length →
      r.Record t u s = Outcome.ok
        { r with logs := r.logs ++
          [{ level := "warn", msg := "event queue full, dropping event",
             fields := [LogField.String "type" t, LogField.Int64 "user_id" u] }] }) ∧
    [OpCreate, OpUpdate, OpDelete, OpMove, OpCopy] =
      ["file_create", "file_update", "file_delete", "file_move", "file_copy"] ∧
    (r.events.length ≤ 1000 → ∀ calls : List (EventType × Int × Option String),
      ∃ r2, recordAll calls r = Outcome.ok r2 ∧ r2.events.length ≤ 1000) := by
  refine ⟨?_, ?_, rfl, ?_⟩
  · intro h
    rw [Record_open r t u s hopen, if_pos h]
  · intro h
    rw [Record_open r t u s hopen, if_neg (by omega)]
  · intro h calls
    obtain ⟨r2, h1, h2, _⟩ := recordAll_bounded calls r hopen h
    exact ⟨r2, h1, h2⟩

theorem Record_bounded_witness :
    (NewRecorder false).eventsClosed = false ∧
    (NewRecorder false).Record OpMove 42 (some "src") = Outcome.ok
      { NewRecorder false with
        events := [{ Typ := "file_move", UserID := 42, Source := some "src" }] } :=
  ⟨rfl, (Record_bounded (NewRecorder false) OpMove 42 (some "src") rfl).1 (by decide)⟩

/-- After `Shutdown` has closed the queue, a `Record` call does not return: the
send on the closed channel is a run-time panic. -/
theorem Record_closed (r : Recorder) (t : EventType) (u : Int) (s : Option String)
    (h : r.eventsClosed = true) : r.Record t u s = Outcome.fault := by
  unfold Recorder.Record
  simp [h]

/-- C14 as worded fails on a recorder that has been shut down: `Shutdown` on a
new recorder returns and leaves the channel `events` closed and empty, and the
`Record` call that follows does not return, its send on the closed channel
being a run-time panic, although the queue holds fewer than 1000 events. -/
theorem Record_after_Shutdown_faults :
    Recorder.Shutdown flakyDb (fun _ => false) (fun _ => false) 1003 (NewRecorder false) =
      Outcome.ok
        { events := [], eventsClosed := true, ctxDone := false, worker := Worker.exited,
          done := true, created := [],
          logs := [{ level := "info", msg := "event recorder shutdown complete",
                     fields := [] }] } ∧
    Recorder.Record
        { events := [], eventsClosed := true, ctxDone := false, worker := Worker.exited,
          done := true, created := [],
          logs := [{ level := "info", msg := "event recorder shutdown complete",
                     fields := [] }] }
        OpCreate 1 none = Outcome.fault := by
  constructor
  · rfl
  · rfl

theorem persist_fields (db : List Event → Event → CreateResult) (dr : Bool) (r : Recorder)
    (evt : Event) (hnp : NeverPanics db) :
    (persist db dr r evt).created = r.created ++ [evt] ∧
    (persist db dr r evt).events = r.events ∧
    (persist db dr r evt).eventsClosed = r.eventsClosed ∧
    (persist db dr r evt).worker = r.worker ∧
    (persist db dr r evt).done = r.done := by
  unfold persist
  cases hdb : db r.created evt with
  | ok => exact ⟨rfl, rfl, rfl, rfl, rfl⟩
  | error err => cases dr <;> exact ⟨rfl, rfl, rfl, rfl, rfl⟩
  | panics v => exact absurd hdb (hnp _ _ _)

theorem awaitDone_draining (db : List Event → Event → CreateResult) (choices cancels : Nat → Bool)
    (hnp : NeverPanics db) (evs : List Event) :
    ∀ (r : Recorder) (i fuel : Nat), r.events = evs → r.eventsClosed = true →
      r.worker = Worker.draining → r.done = false → evs.length + 2 ≤ fuel →
      ∃ r2, awaitDone db choices cancels fuel i r = Outcome.ok r2 ∧
        r2.created = r.created ++ evs ∧ r2.events = [] ∧ r2.done = true := by
  induction evs with
  | nil =>
    intro r i fuel hev hcl hw hd hf
    obtain ⟨f, rfl⟩ : ∃ f, fuel = f + 2 := ⟨fuel - 2, by simp only [List.length_nil] at hf; omega⟩
    obtain ⟨events, closed, ctx, worker, done, created, logs⟩ := r
    dsimp only at hev hcl hw hd
    subst hev hcl hw hd
    exact ⟨{ events := [], eventsClosed := true, ctxDone := ctx || cancels i,
             worker := Worker.exited, done := true, created := created, logs := logs },
      by simp [awaitDone, workerStep], by simp, rfl, rfl⟩
  | cons e rest ih =>
    intro r i fuel hev hcl hw hd hf
    obtain ⟨f, rfl⟩ : ∃ f, fuel = f + 1 := ⟨fuel - 1, by omega⟩
    obtain ⟨events, closed, ctx, worker, done, created, logs⟩ := r
    dsimp only at hev hcl hw hd
    subst hev hcl hw hd
    obtain ⟨p1, p2, p3, p4, p5⟩ := persist_fields db true
      { events := rest, eventsClosed := true, ctxDone := ctx || cancels i,
        worker := Worker.draining, done := false, created := created, logs := logs } e hnp
    obtain ⟨r2, h1, h2, h3, h4⟩ := ih _ (i + 1) f p2 p3 p4 p5
      (by simp only [List.length_cons] at hf; omega)
    refine ⟨r2, ?_, ?_, h3, h4⟩
    · rw [awaitDone]
      simp only [workerStep, Bool.false_eq_true, if_false]
      exact h1
    · rw [h2, p1]
      simp

theorem awaitDone_selecting (db : List Event → Event → CreateResult)
    (choices cancels : Nat → Bool) (hnp : NeverPanics db) (evs : List Event) :
    ∀ (r : Recorder) (i fuel : Nat), r.events = evs → r.eventsClosed = true →
      r.worker = Worker.selecting → r.done = false → evs.length + 3 ≤ fuel →
      ∃ r2, awaitDone db choices cancels fuel i r = Outcome.ok r2 ∧
        r2.created = r.created ++ evs ∧ r2.events = [] ∧ r2.done = true := by
  induction evs with
  | nil =>
    intro r i fuel hev hcl hw hd hf
    obtain ⟨f, rfl⟩ : ∃ f, fuel = f + 1 := ⟨fuel - 1, by omega⟩
    obtain ⟨events, closed, ctx, worker, done, created, logs⟩ := r
    dsimp only at hev hcl hw hd
    subst hev hcl hw hd
    by_cases hsw : ((ctx = true ∨ cancels i = true) ∧ choices i = true)
    · obtain ⟨r2, h1, h2, h3, h4⟩ := awaitDone_draining db choices cancels hnp []
        { events := [], eventsClosed := true, ctxDone := ctx || cancels i,
          worker := Worker.draining, done := false, created := created, logs := logs ++
          [{ level := "info", msg := "draining remaining events before shutdown",
             fields := [] }] } (i + 1) f rfl rfl rfl rfl
        (by simp only [List.length_nil] at hf ⊢; omega)
      refine ⟨r2, ?_, h2, h3, h4⟩
      rw [awaitDone]
      simp only [workerStep, Bool.false_eq_true, if_false, Bool.and_eq_true, Bool.or_eq_true,
        Bool.not_eq_true', List.isEmpty_nil, Bool.not_true, Bool.or_true, Bool.not_false,
        Bool.or_false, if_pos hsw]
      exact h1
    · obtain ⟨g, rfl⟩ : ∃ g, f = g + 1 := ⟨f - 1, by simp only [List.length_nil] at hf; omega⟩
      refine ⟨{ events := [], eventsClosed := true, ctxDone := ctx || cancels i,
                worker := Worker.exited, done := true, created := created, logs := logs },
        ?_, ?_, rfl, rfl⟩
      · rw [awaitDone]
        simp only [workerStep, Bool.false_eq_true, if_false, Bool.and_eq_true, Bool.or_eq_true,
          Bool.not_eq_true', List.isEmpty_nil, Bool.not_true, Bool.or_true, Bool.not_false,
          Bool.or_false, if_neg hsw]
        simp [awaitDone]
      · simp
  | cons e rest ih =>
    intro r i fuel hev hcl hw hd hf
    obtain ⟨f, rfl⟩ : ∃ f, fuel = f + 1 := ⟨fuel - 1, by omega⟩
    obtain ⟨events, closed, ctx, worker, done, created, logs⟩ := r
    dsimp only at hev hcl hw hd
    subst hev hcl hw hd
    by_cases hsw : ((ctx = true ∨ cancels i = true) ∧ choices i = true)
    · obtain ⟨r2, h1, h2, h3, h4⟩ := awaitDone_draining db choices cancels hnp (e :: rest)
        { events := e :: rest, eventsClosed := true, ctxDone := ctx || cancels i,
          worker := Worker.draining, done := false, created := created, logs := logs ++
          [{ level := "info", msg := "draining remaining events before shutdown",
             fields := [] }] } (i + 1) f rfl rfl rfl rfl
        (by simp only [List.length_cons] at hf ⊢; omega)
      refine ⟨r2, ?_, h2, h3, h4⟩
      rw [awaitDone]
      simp only [workerStep, Bool.false_eq_true, if_false, Bool.and_eq_true, Bool.or_eq_true,
        Bool.not_eq_true', List.isEmpty_cons, Bool.not_true, Bool.or_true, Bool.not_false,
        Bool.or_false, Bool.true_or, if_pos hsw]
      exact h1
    · obtain ⟨p1, p2, p3, p4, p5⟩ := persist_fields db false
        { events := rest, eventsClosed := true, ctxDone := ctx || cancels i,
          worker := Worker.selecting, done := false, created := created, logs := logs } e hnp
      obtain ⟨r2, h1, h2, h3, h4⟩ := ih _ (i + 1) f p2 p3 p4 p5
        (by simp only [List.length_cons] at hf; omega)
      refine ⟨r2, ?_, ?_, h3, h4⟩
      · rw [awaitDone]
        simp only [workerStep, Bool.false_eq_true, if_false, Bool.and_eq_true, Bool.or_eq_true,
          Bool.not_eq_true', List.isEmpty_cons, Bool.not_true, Bool.or_true, Bool.not_false,
          Bool.or_false, Bool.true_or, if_neg hsw]
        exact h1
      · rw [h2, p1]
        simp

theorem workerStep_keeps (db : List Event → Event → CreateResult) (hnp : NeverPanics db)
    (pick : Bool) (r r1 : Recorder) (hstep : workerStep db pick r = some r1)
    (hopen : r.eventsClosed = false) (hw : r.worker ≠ Worker.exited) (hd : r.done = false) :
    r1.created ++ r1.events = r.created ++ r.events ∧ r1.eventsClosed = false ∧
      r1.worker ≠ Worker.exited ∧ r1.done = false ∧ r1.events.length ≤ r.events.length := by
  obtain ⟨events, closed, ctx, worker, done, created, logs⟩ := r
  dsimp only at hopen hw hd
  subst hopen hd
  cases worker with
  | exited => exact absurd rfl hw
  | selecting =>
    unfold workerStep at hstep
    dsimp only at hstep
    split at hstep
    · cases hstep
      exact ⟨rfl, rfl, by simp, rfl, le_refl _⟩
    · cases events with
      | nil => simp at hstep
      | cons e rest =>
        dsimp only at hstep
        cases hstep
        obtain ⟨p1, p2, p3, p4, p5⟩ := persist_fields db false
          { events := rest, eventsClosed := false, ctxDone := ctx, worker := Worker.selecting,
            done := false, created := created, logs := logs } e hnp
        refine ⟨?_, p3, ?_, p5, ?_⟩
        · rw [p1, p2]; simp
        · rw [p4]; simp
        · rw [p2]; simp
  | draining =>
    unfold workerStep at hstep
    dsimp only at hstep
    cases events with
    | nil => simp at hstep
    | cons e rest =>
      dsimp only at hstep
      cases hstep
      obtain ⟨p1, p2, p3, p4, p5⟩ := persist_fields db true
        { events := rest, eventsClosed := false, ctxDone := ctx, worker := Worker.draining,
          done := false, created := created, logs := logs } e hnp
      refine ⟨?_, p3, ?_, p5, ?_⟩
      · rw [p1, p2]; simp
      · rw [p4]; simp
      · rw [p2]; simp

theorem runActions_keeps (db : List Event → Event → CreateResult) (hnp : NeverPanics db)
    (acts : List Action) :
    ∀ (r : Recorder) (acc : List Event), r.created ++ r.events = acc →
      r.eventsClosed = false → r.worker ≠ Worker.exited → r.done = false →
      r.events.length ≤ 1000 →
      (runActions db acts r acc).1.created ++ (runActions db acts r acc).1.events =
          (runActions db acts r acc).2 ∧
        (runActions db acts r acc).1.eventsClosed = false ∧
        (runActions db acts r acc).1.worker ≠ Worker.exited ∧
        (runActions db acts r acc).1.done = false ∧
        (runActions db acts r acc).1.events.length ≤ 1000 := by
  induction acts with
  | nil => intro r acc h1 h2 h3 h4 h5; exact ⟨h1, h2, h3, h4, h5⟩
  | cons a rest ih =>
    intro r acc h1 h2 h3 h4 h5
    cases a with
    | record t u s =>
      unfold runActions
      rw [Record_open r t u s h2]
      by_cases hroom : r.events.length < 1000
      · simp only [if_pos hroom]
        refine ih _ _ ?_ h2 h3 h4 ?_
        · rw [← h1]; simp
        · simp only [List.length_append, List.length_singleton]; omega
      · simp only [if_neg hroom]
        exact ih _ _ h1 h2 h3 h4 h5
    | work pick =>
      unfold runActions
      cases hstep : workerStep db pick r with
      | none => exact ih _ _ h1 h2 h3 h4 h5
      | some r1 =>
        obtain ⟨q1, q2, q3, q4, q5⟩ := workerStep_keeps db hnp pick r r1 hstep h2 h3 h4
        exact ih _ _ (q1.trans h1) q2 q3 q4 (by omega)
    | cancel =>
      unfold runActions
      exact ih _ _ h1 h2 h3 h4 h5

theorem Shutdown_open (db : List Event → Event → CreateResult) (hnp : NeverPanics db)
    (choices cancels : Nat → Bool) (fuel : Nat) (r : Recorder)
    (hopen : r.eventsClosed = false) (hw : r.worker ≠ Worker.exited) (hd : r.done = false)
    (hfuel : r.events.length + 3 ≤ fuel) :
    ∃ r2, Recorder.Shutdown db choices cancels fuel r = Outcome.ok r2 ∧
      r2.created = r.created ++ r.events ∧ r2.events = [] ∧ r2.done = true := by
  have hrun : ∃ r1, awaitDone db choices cancels fuel 0 { r with eventsClosed := true } =
      Outcome.ok r1 ∧ r1.created = r.created ++ r.events ∧ r1.events = [] ∧
      r1.done = true := by
    have hw2 : r.worker = Worker.selecting ∨ r.worker = Worker.draining := by
      cases hwk : r.worker with
      | exited => exact absurd hwk hw
      | selecting => exact Or.inl rfl
      | draining => exact Or.inr rfl
    rcases hw2 with hwk | hwk
    · exact awaitDone_selecting db choices cancels hnp r.events { r with eventsClosed := true }
        0 fuel rfl rfl hwk hd hfuel
    · exact awaitDone_draining db choices cancels hnp r.events { r with eventsClosed := true }
        0 fuel rfl rfl hwk hd (by omega)
  obtain ⟨r1, e1, e2, e3, e4⟩ := hrun
  refine ⟨{ r1 with logs := r1.logs ++
    [{ level := "info", msg := "event recorder shutdown complete", fields := [] }] },
    ?_, e2, e3, e4⟩
  unfold Recorder.Shutdown
  simp only [hopen, Bool.false_eq_true, if_false, e1]

/-- C15, as amended: take any recorder started with a context that is or is
not cancelled, let callers record events, the worker run and the context be
cancelled in any order, and then call `Shutdown`. Provided no `db.Create` call
panics, `Shutdown` returns (1003 steps of the worker are enough, whatever its
`select`s choose and whenever the context is cancelled meanwhile), and when it
returns the calls of `db.Create` made are exactly the events that were
enqueued, each once, in the order they were enqueued, and the queue is empty.
A `db.Create` that returns an error is logged with one error entry and leaves
the worker, the queue and the channel `done` as they are, so the following
events are still persisted. -/
theorem Shutdown_drains (db : List Event → Event → CreateResult) (hnp : NeverPanics db)
    (ctx0 : Bool) (acts : List Action) (choices cancels : Nat → Bool) (fuel : Nat)
    (hfuel : 1003 ≤ fuel) :
    (∃ r2, Recorder.Shutdown db choices cancels fuel
        (runActions db acts (NewRecorder ctx0) []).1 = Outcome.ok r2 ∧
      r2.created = (runActions db acts (NewRecorder ctx0) []).2 ∧ r2.events = [] ∧
      r2.done = true) ∧
    (∀ (dr : Bool) (r : Recorder) (evt : Event) (err : String),
      db r.created evt = CreateResult.error err →
      (persist db dr r evt).created = r.created ++ [evt] ∧
      (persist db dr r evt).events = r.events ∧
      (persist db dr r evt).worker = r.worker ∧
      (persist db dr r evt).done = r.done ∧
      ∃ entry : LogEntry, entry.level = "error" ∧
        LogField.Error err ∈ entry.fields ∧
        (persist db dr r evt).logs = r.logs ++ [entry]) := by
  constructor
  · obtain ⟨q1, q2, q3, q4, q5⟩ := runActions_keeps db hnp acts (NewRecorder ctx0) []
      rfl rfl (by simp [NewRecorder]) rfl (by simp [NewRecorder])
    obtain ⟨r2, e1, e2, e3, e4⟩ := Shutdown_open db hnp choices cancels fuel _ q2 q3 q4
      (by omega)
    exact ⟨r2, e1, e2.trans q1, e3, e4⟩
  · intro dr r evt err hdb
    obtain ⟨p1, p2, _, p4, p5⟩ := persist_fields db dr r evt hnp
    refine ⟨p1, p2, p4, p5, ?_⟩
    unfold persist
    rw [hdb]
    cases dr
    · exact ⟨_, rfl, by simp, rfl⟩
    · exact ⟨_, rfl, by simp, rfl⟩

theorem Shutdown_drains_witness :
    NeverPanics flakyDb ∧
    ∃ r2, Recorder.Shutdown flakyDb (fun _ => true) (fun _ => false) 1003
        (runActions flakyDb
          [Action.record OpCreate 0 none, Action.cancel, Action.record OpMove 5 (some "a"),
           Action.work true, Action.record OpCopy 6 none]
          (NewRecorder false) []).1 = Outcome.ok r2 ∧
      r2.created = (runActions flakyDb
          [Action.record OpCreate 0 none, Action.cancel, Action.record OpMove 5 (some "a"),
           Action.work true, Action.record OpCopy 6 none]
          (NewRecorder false) []).2 ∧ r2.events = [] ∧ r2.done = true :=
  have hnp : NeverPanics flakyDb := by
    intro before evt value
    unfold flakyDb
    split <;> simp
  ⟨hnp, (Shutdown_drains flakyDb hnp false _ (fun _ => true) (fun _ => false) 1003
    (le_refl _)).1⟩

/-- C15 as worded fails when a `db.Create` call panics: two events are
enqueued, `Shutdown` is called and returns, and only the first event was
passed to `db.Create`; the second is still in the queue. -/
theorem Shutdown_after_panic_leaves_events :
    (runActions panickingDb [Action.record OpCreate 1 none, Action.record OpDelete 2 none]
      (NewRecorder false) []).2 =
      [{ Typ := "file_create", UserID := 1, Source := none },
       { Typ := "file_delete", UserID := 2, Source := none }] ∧
    Recorder.Shutdown panickingDb (fun _ => false) (fun _ => false) 1003
      (runActions panickingDb [Action.record OpCreate 1 none, Action.record OpDelete 2 none]
        (NewRecorder false) []).1 =
      Outcome.ok
        { events := [{ Typ := "file_delete", UserID := 2, Source := none }],
          eventsClosed := true, ctxDone := false, worker := Worker.exited, done := true,
          created := [{ Typ := "file_create", UserID := 1, Source := none }],
          logs := [{ level := "error", msg := "panic in processEvents",
                     fields := [LogField.Any "panic" "nil db"] },
                   { level := "info", msg := "event recorder shutdown complete",
                     fields := [] }] } := by
  constructor
  · rfl
  · rfl

end Teldrive
